import Mathlib

/-!
Verification of the turn-based tactical layer of the glop repository:
terrain-cost grid graph, pathfinding queries, action lifecycle and the
highlight overlay cache.  Definitions are shallow embeddings of the Go
source (`game` package action code and the `main` package level code);
the generic pathfinding algorithms (`glop/util/algorithm`), the entity
accessors and the dice roller are not part of the provided sources and
are modelled from the specification where noted.
-/

namespace Glop

/-! ## Generic weighted graphs and the pathfinding engine

The engine (`glop/util/algorithm`) exposes `Dijkstra` and
`ReachableWithinLimit` over any graph with an `Adjacent` method returning
adjacent vertices and edge weights.  Vertices are naturals below `n`,
weights are rationals (the Go code uses `float64`, whose values here are
always exact dyadic rationals coming from integer terrain costs and a
single halving). -/

structure Graph where
  n : Nat
  adj : Nat → List (Nat × ℚ)

/-- Adjacency stays inside the vertex set. -/
def GraphWF (g : Graph) : Prop :=
  ∀ u, u < g.n → ∀ p ∈ g.adj u, p.1 < g.n

/-- All edge weights are non-negative (the cost model guarantees this). -/
def GraphNonneg (g : Graph) : Prop :=
  ∀ u, u < g.n → ∀ p ∈ g.adj u, 0 ≤ p.2

instance (g : Graph) : Decidable (GraphWF g) := by
  unfold GraphWF; infer_instance

instance (g : Graph) : Decidable (GraphNonneg g) := by
  unfold GraphNonneg; infer_instance

/-! ### Walks

A walk from `u` is a list of steps; each step `(v, w)` must be an edge of
the current vertex.  `walkEnd` is the final vertex, `walkCost` the sum of
the step weights. -/

def Chain (g : Graph) : Nat → List (Nat × ℚ) → Prop
  | _, [] => True
  | u, s :: rest => s ∈ g.adj u ∧ Chain g s.1 rest

def walkEnd : Nat → List (Nat × ℚ) → Nat
  | u, [] => u
  | _, s :: rest => walkEnd s.1 rest

def walkCost (steps : List (Nat × ℚ)) : ℚ :=
  (steps.map Prod.snd).sum

/-- There is a walk from some vertex of `srcs` to `v` of total cost at most
`B`; this is equivalent to "the true shortest-path cost from some source
is ≤ B" (the minimum over walks is ≤ B iff some walk is). -/
def ReachesWithin (g : Graph) (srcs : List Nat) (v : Nat) (B : ℚ) : Prop :=
  ∃ s ∈ srcs, ∃ steps, Chain g s steps ∧ walkEnd s steps = v ∧ walkCost steps ≤ B

@[simp] theorem chain_nil (g : Graph) (u : Nat) : Chain g u [] := trivial

theorem chain_cons {g : Graph} {u : Nat} {s : Nat × ℚ} {rest : List (Nat × ℚ)} :
    Chain g u (s :: rest) ↔ s ∈ g.adj u ∧ Chain g s.1 rest := Iff.rfl

theorem walkEnd_append (u : Nat) (p q : List (Nat × ℚ)) :
    walkEnd u (p ++ q) = walkEnd (walkEnd u p) q := by
  induction p generalizing u with
  | nil => rfl
  | cons s rest ih => simpa [walkEnd] using ih s.1

theorem walkCost_append (p q : List (Nat × ℚ)) :
    walkCost (p ++ q) = walkCost p + walkCost q := by
  simp [walkCost]

theorem chain_append {g : Graph} (u : Nat) (p q : List (Nat × ℚ)) :
    Chain g u (p ++ q) ↔ Chain g u p ∧ Chain g (walkEnd u p) q := by
  induction p generalizing u with
  | nil => simp [walkEnd]
  | cons s rest ih =>
    simp only [List.cons_append, chain_cons, walkEnd, ih s.1, and_assoc]

theorem chain_end_lt {g : Graph} (hwf : GraphWF g) {u : Nat} {steps : List (Nat × ℚ)}
    (hu : u < g.n) (hc : Chain g u steps) : walkEnd u steps < g.n := by
  induction steps generalizing u with
  | nil => exact hu
  | cons s rest ih =>
    obtain ⟨hs, hrest⟩ := hc
    exact ih (hwf u hu s hs) hrest

theorem chain_weights_nonneg {g : Graph} (hwf : GraphWF g) (hnn : GraphNonneg g)
    {u : Nat} {steps : List (Nat × ℚ)} (hu : u < g.n) (hc : Chain g u steps) :
    ∀ s ∈ steps, 0 ≤ s.2 := by
  induction steps generalizing u with
  | nil => intro s hs; cases hs
  | cons s rest ih =>
    obtain ⟨hs, hrest⟩ := hc
    intro t ht
    rcases List.mem_cons.mp ht with h | h
    · rw [h]; exact hnn u hu s hs
    · exact ih (hwf u hu s hs) hrest t h

theorem walkCost_nonneg {steps : List (Nat × ℚ)}
    (h : ∀ s ∈ steps, 0 ≤ s.2) : 0 ≤ walkCost steps := by
  unfold walkCost
  apply List.sum_nonneg
  intro x hx
  obtain ⟨s, hs, rfl⟩ := List.mem_map.mp hx
  exact h s hs

/-! ### Distance computation

`none` plays the role of infinity.  `optMin` is minimum in that order and
`shift` adds a weight to a finite distance. -/

def optMin : Option ℚ → Option ℚ → Option ℚ
  | none, b => b
  | some a, none => some a
  | some a, some b => some (min a b)

def shift (a : Option ℚ) (w : ℚ) : Option ℚ :=
  a.map (· + w)

/-- `ole a b`: the (possibly infinite) distance `a` is at most `b`. -/
def ole (a b : Option ℚ) : Prop :=
  ∀ y, b = some y → ∃ x, a = some x ∧ x ≤ y

theorem ole_refl (a : Option ℚ) : ole a a :=
  fun y hy => ⟨y, hy, le_refl y⟩

theorem ole_trans {a b c : Option ℚ} (h1 : ole a b) (h2 : ole b c) : ole a c := by
  intro z hz
  obtain ⟨y, hy, hyz⟩ := h2 z hz
  obtain ⟨x, hx, hxy⟩ := h1 y hy
  exact ⟨x, hx, le_trans hxy hyz⟩

theorem optMin_le_left (a b : Option ℚ) : ole (optMin a b) a := by
  intro y hy
  cases a with
  | none => cases hy
  | some x =>
    cases b with
    | none => exact ⟨y, by simpa [optMin] using hy, le_refl y⟩
    | some z =>
      injection hy with hy
      exact ⟨min x z, by simp [optMin], by rw [← hy]; exact min_le_left x z⟩

theorem optMin_le_right (a b : Option ℚ) : ole (optMin a b) b := by
  intro y hy
  cases a with
  | none => exact ⟨y, by simpa [optMin] using hy, le_refl y⟩
  | some x =>
    cases b with
    | none => cases hy
    | some z =>
      injection hy with hy
      exact ⟨min x z, by simp [optMin], by rw [← hy]; exact min_le_right x z⟩

@[simp] theorem optMin_none_left (b : Option ℚ) : optMin none b = b := rfl

@[simp] theorem optMin_some_none (a : ℚ) : optMin (some a) none = some a := rfl

@[simp] theorem optMin_some_some (a b : ℚ) :
    optMin (some a) (some b) = some (min a b) := rfl

theorem optMin_cases (a b : Option ℚ) (c : ℚ) (h : optMin a b = some c) :
    a = some c ∨ b = some c := by
  cases a with
  | none => right; simpa using h
  | some x =>
    cases b with
    | none => left; simpa using h
    | some z =>
      rw [optMin_some_some] at h
      injection h with h
      rcases min_choice x z with hm | hm
      · left; rw [← h, hm]
      · right; rw [← h, hm]

theorem shift_mono {a b : Option ℚ} (w : ℚ) (h : ole a b) :
    ole (shift a w) (shift b w) := by
  intro y hy
  cases b with
  | none => cases hy
  | some z =>
    simp only [shift, Option.map_some] at hy
    injection hy with hy
    obtain ⟨x, hx, hxz⟩ := h z rfl
    exact ⟨x + w, by simp [shift, hx], by rw [← hy]; exact add_le_add_right hxz w⟩

/-! ### The relaxation engine

The pathfinding engine itself lives in `glop/util/algorithm`, which is not
among the provided sources.  Modelled from the spec: distances are relaxed
edge by edge until every shortest cost is final; a vertex's distance never
increases and always remains the cost of an actual walk from a source. -/

def edges (g : Graph) : List (Nat × Nat × ℚ) :=
  (List.range g.n).flatMap fun u => (g.adj u).map fun p => (u, p.1, p.2)

theorem mem_edges {g : Graph} {u v : Nat} {w : ℚ} :
    (u, v, w) ∈ edges g ↔ u < g.n ∧ (v, w) ∈ g.adj u := by
  simp only [edges, List.mem_flatMap, List.mem_map, List.mem_range]
  constructor
  · rintro ⟨u', hu', ⟨pv, pw⟩, hp, he⟩
    injection he with h1 h2
    injection h2 with h2 h3
    subst h1; subst h2; subst h3
    exact ⟨hu', hp⟩
  · rintro ⟨hu, hp⟩
    exact ⟨u, hu, (v, w), hp, rfl⟩

def relaxEdge (d : Nat → Option ℚ) (e : Nat × Nat × ℚ) : Nat → Option ℚ :=
  fun v => if v = e.2.1 then optMin (d v) (shift (d e.1) e.2.2) else d v

def relaxPass (g : Graph) (d : Nat → Option ℚ) : Nat → Option ℚ :=
  (edges g).foldl relaxEdge d

def initD (srcs : List Nat) : Nat → Option ℚ :=
  fun v => if v ∈ srcs then some 0 else none

def bf (g : Graph) (srcs : List Nat) : Nat → Nat → Option ℚ
  | 0 => initD srcs
  | k + 1 => relaxPass g (bf g srcs k)

/-- Final distance map: `g.n` relaxation passes finalize every shortest
cost realizable by a duplicate-free walk. -/
def distMap (g : Graph) (srcs : List Nat) : Nat → Option ℚ :=
  bf g srcs g.n

/-- Modelled from the spec: `ReachableWithinLimit` returns the set of all
vertices whose shortest cost from any source is ≤ the budget, inclusive of
the sources, each vertex reported once. -/
def ReachableWithinLimit (g : Graph) (srcs : List Nat) (limit : ℚ) : List Nat :=
  (List.range g.n).filter fun v =>
    match distMap g srcs v with
    | some c => decide (c ≤ limit)
    | none => false

theorem relaxEdge_le (d : Nat → Option ℚ) (e : Nat × Nat × ℚ) (v : Nat) :
    ole (relaxEdge d e v) (d v) := by
  unfold relaxEdge
  by_cases h : v = e.2.1
  · simp only [if_pos h]; exact optMin_le_left _ _
  · simp only [if_neg h]; exact ole_refl _

theorem foldl_relax_le (E : List (Nat × Nat × ℚ)) (d : Nat → Option ℚ) (v : Nat) :
    ole (E.foldl relaxEdge d v) (d v) := by
  induction E generalizing d with
  | nil => exact ole_refl _
  | cons e E ih =>
    exact ole_trans (ih (relaxEdge d e)) (relaxEdge_le d e v)

theorem relaxPass_le (g : Graph) (d : Nat → Option ℚ) (v : Nat) :
    ole (relaxPass g d v) (d v) :=
  foldl_relax_le (edges g) d v

/-- During one pass, an edge present in the list bounds the destination's
final distance by the source's initial distance plus the weight. -/
theorem foldl_relax_bound (E : List (Nat × Nat × ℚ)) (d : Nat → Option ℚ)
    {u v : Nat} {w : ℚ} (he : (u, v, w) ∈ E) :
    ole (E.foldl relaxEdge d v) (shift (d u) w) := by
  induction E generalizing d with
  | nil => cases he
  | cons e E ih =>
    rcases List.mem_cons.mp he with h | h
    · subst h
      refine ole_trans (foldl_relax_le E (relaxEdge d (u, v, w)) v) ?_
      unfold relaxEdge
      simp only [if_pos rfl]
      exact optMin_le_right _ _
    · refine ole_trans (ih (relaxEdge d e) h) ?_
      exact shift_mono w (relaxEdge_le d e u)

/-- Distances are always realized by actual walks from the sources. -/
def Realizable (g : Graph) (srcs : List Nat) (d : Nat → Option ℚ) : Prop :=
  ∀ v c, d v = some c →
    ∃ s ∈ srcs, ∃ steps, Chain g s steps ∧ walkEnd s steps = v ∧ walkCost steps = c

theorem realizable_init (g : Graph) (srcs : List Nat) :
    Realizable g srcs (initD srcs) := by
  intro v c hv
  unfold initD at hv
  by_cases h : v ∈ srcs
  · rw [if_pos h] at hv
    injection hv with hv
    exact ⟨v, h, [], trivial, rfl, hv⟩
  · rw [if_neg h] at hv; cases hv

theorem realizable_relaxEdge {g : Graph} {srcs : List Nat} {d : Nat → Option ℚ}
    {e : Nat × Nat × ℚ} (hE : e ∈ edges g) (hd : Realizable g srcs d) :
    Realizable g srcs (relaxEdge d e) := by
  obtain ⟨u, v, w⟩ := e
  intro x c hx
  unfold relaxEdge at hx
  by_cases h : x = v
  · rw [h, if_pos rfl] at hx
    rcases optMin_cases _ _ _ hx with h1 | h1
    · obtain ⟨s, hs, steps, hc, hend, hcost⟩ := hd v c h1
      exact ⟨s, hs, steps, hc, by rw [h]; exact hend, hcost⟩
    · cases hdu : d u with
      | none => rw [hdu] at h1; simp [shift] at h1
      | some cu =>
        rw [hdu] at h1
        simp only [shift, Option.map_some'] at h1
        injection h1 with h1
        obtain ⟨s, hs, steps, hc, hend, hcost⟩ := hd u cu hdu
        obtain ⟨hun, hadj⟩ := mem_edges.mp hE
        refine ⟨s, hs, steps ++ [(v, w)], ?_, ?_, ?_⟩
        · rw [chain_append]
          exact ⟨hc, hend ▸ ⟨hadj, trivial⟩⟩
        · rw [walkEnd_append, hend, h]; rfl
        · rw [walkCost_append, hcost, ← h1]; simp [walkCost]
  · simp only [if_neg h] at hx
    exact hd x c hx

theorem realizable_foldl {g : Graph} {srcs : List Nat} {E : List (Nat × Nat × ℚ)}
    (hE : ∀ e ∈ E, e ∈ edges g) :
    ∀ {d : Nat → Option ℚ}, Realizable g srcs d →
      Realizable g srcs (E.foldl relaxEdge d) := by
  induction E with
  | nil => intro d hd; exact hd
  | cons e E ih =>
    intro d hd
    exact ih (fun e' he' => hE e' (List.mem_cons_of_mem e he'))
      (realizable_relaxEdge (hE e (List.mem_cons_self e E)) hd)

theorem realizable_bf (g : Graph) (srcs : List Nat) (k : Nat) :
    Realizable g srcs (bf g srcs k) := by
  induction k with
  | zero => exact realizable_init g srcs
  | succ k ih => exact realizable_foldl (fun e he => he) ih

@[simp] theorem walkCost_nil : walkCost [] = 0 := rfl

@[simp] theorem walkCost_single (v : Nat) (w : ℚ) : walkCost [(v, w)] = w := by
  simp [walkCost]

/-- After `k` passes the distance of a walk's endpoint is bounded by the
cost of any walk of at most `k` steps. -/
theorem bf_bound {g : Graph} {srcs : List Nat} (hwf : GraphWF g)
    (hsrc : ∀ s ∈ srcs, s < g.n) :
    ∀ (k s : Nat) (steps : List (Nat × ℚ)), s ∈ srcs → Chain g s steps →
      steps.length ≤ k →
      ole (bf g srcs k (walkEnd s steps)) (some (walkCost steps)) := by
  intro k
  induction k with
  | zero =>
    intro s steps hs hc hlen
    rw [List.length_eq_zero.mp (Nat.le_zero.mp hlen)]
    unfold bf initD walkEnd
    rw [if_pos hs]
    exact ole_refl _
  | succ k ih =>
    intro s steps hs hc hlen
    rcases List.eq_nil_or_concat steps with rfl | ⟨p, e, rfl⟩
    · refine ole_trans (relaxPass_le g (bf g srcs k) _) ?_
      exact ih s [] hs trivial (Nat.zero_le k)
    · obtain ⟨v, w⟩ := e
      rw [List.concat_eq_append] at hc hlen ⊢
      rw [chain_append] at hc
      obtain ⟨hcp, hce⟩ := hc
      obtain ⟨hadj, -⟩ := hce
      have hu : walkEnd s p < g.n := chain_end_lt hwf (hsrc s hs) hcp
      have hE : (walkEnd s p, v, w) ∈ edges g := mem_edges.mpr ⟨hu, hadj⟩
      have hlen' : p.length ≤ k := by
        simp only [List.length_append, List.length_cons, List.length_nil] at hlen
        omega
      have h1 : ole (bf g srcs (k + 1) v) (shift (bf g srcs k (walkEnd s p)) w) :=
        foldl_relax_bound (edges g) (bf g srcs k) hE
      have h2 := shift_mono w (ih s p hs hcp hlen')
      have h3 : walkEnd s (p ++ [(v, w)]) = v := by
        rw [walkEnd_append]; rfl
      have h4 : walkCost (p ++ [(v, w)]) = walkCost p + w := by
        rw [walkCost_append, walkCost_single]
      rw [h3, h4]
      exact ole_trans h1 (by simpa [shift] using h2)

/-! ### Shortening a walk to fewer than `n` steps -/

theorem mem_getD_nat {x : Nat} :
    ∀ {xs : List Nat}, x ∈ xs → ∃ k, k < xs.length ∧ xs.getD k 0 = x := by
  intro xs
  induction xs with
  | nil => intro h; cases h
  | cons y ys ih =>
    intro h
    rcases List.mem_cons.mp h with h | h
    · exact ⟨0, Nat.succ_pos _, h.symm⟩
    · obtain ⟨k, hk, hval⟩ := ih h
      exact ⟨k + 1, Nat.succ_lt_succ hk, hval⟩

theorem not_nodup_pos :
    ∀ (L : List Nat), ¬ L.Nodup →
      ∃ i j, i < j ∧ j < L.length ∧ L.getD i 0 = L.getD j 0 := by
  intro L
  induction L with
  | nil => intro h; exact absurd List.nodup_nil h
  | cons x xs ih =>
    intro h
    rw [List.nodup_cons] at h
    by_cases hx : x ∈ xs
    · obtain ⟨k, hk, hval⟩ := mem_getD_nat hx
      exact ⟨0, k + 1, Nat.succ_pos _, Nat.succ_lt_succ hk, hval.symm⟩
    · have hxs : ¬ xs.Nodup := fun hnd => h ⟨hx, hnd⟩
      obtain ⟨i, j, hij, hj, hval⟩ := ih hxs
      exact ⟨i + 1, j + 1, Nat.succ_lt_succ hij, Nat.succ_lt_succ hj, hval⟩

theorem list_pigeonhole {L : List Nat} {n : Nat} (h : ∀ x ∈ L, x < n)
    (hlen : n < L.length) : ¬ L.Nodup := by
  intro hnd
  have h1 : L.toFinset.card = L.length := List.toFinset_card_of_nodup hnd
  have h2 : L.toFinset ⊆ Finset.range n := fun x hx =>
    Finset.mem_range.mpr (h x (List.mem_toFinset.mp hx))
  have h3 := Finset.card_le_card h2
  rw [h1, Finset.card_range] at h3
  omega

theorem chain_vertices_lt {g : Graph} (hwf : GraphWF g) :
    ∀ {steps : List (Nat × ℚ)} {s : Nat}, s < g.n → Chain g s steps →
      ∀ x ∈ s :: steps.map Prod.fst, x < g.n := by
  intro steps
  induction steps with
  | nil =>
    intro s hs _ x hx
    rcases List.mem_cons.mp hx with h | h
    · rw [h]; exact hs
    · cases h
  | cons e rest ih =>
    intro s hs hc x hx
    obtain ⟨hadj, hrest⟩ := hc
    rcases List.mem_cons.mp hx with h | h
    · rw [h]; exact hs
    · exact ih (hwf s hs e hadj) hrest x h

theorem walkEnd_take :
    ∀ (steps : List (Nat × ℚ)) (s i : Nat), i ≤ steps.length →
      walkEnd s (steps.take i) = (s :: steps.map Prod.fst).getD i 0 := by
  intro steps
  induction steps with
  | nil =>
    intro s i h
    have hi : i = 0 := by simpa using h
    subst hi
    rfl
  | cons e rest ih =>
    intro s i h
    cases i with
    | zero => rfl
    | succ i =>
      show walkEnd e.1 (rest.take i) = ((e :: rest).map Prod.fst).getD i 0
      rw [ih e.1 i (by simpa using h)]
      rfl

/-- With non-negative weights, every walk can be replaced by one of the
same endpoints, no greater cost, and fewer than `g.n` steps. -/
theorem walk_shorten {g : Graph} (hwf : GraphWF g) (hnn : GraphNonneg g) :
    ∀ (m : Nat) {s : Nat} (steps : List (Nat × ℚ)), s < g.n → Chain g s steps →
      steps.length ≤ m →
      ∃ steps', Chain g s steps' ∧ walkEnd s steps' = walkEnd s steps ∧
        walkCost steps' ≤ walkCost steps ∧ steps'.length < g.n := by
  intro m
  induction m with
  | zero =>
    intro s steps hs hc hlen
    refine ⟨steps, hc, rfl, le_refl _, ?_⟩
    omega
  | succ m ih =>
    intro s steps hs hc hlen
    by_cases hshort : steps.length < g.n
    · exact ⟨steps, hc, rfl, le_refl _, hshort⟩
    · have hlong : g.n < (s :: steps.map Prod.fst).length := by
        simp only [List.length_cons, List.length_map]
        omega
      have hdup := list_pigeonhole (chain_vertices_lt hwf hs hc) hlong
      obtain ⟨i, j, hij, hj, hval⟩ := not_nodup_pos _ hdup
      have hjlen : j ≤ steps.length := by
        simp only [List.length_cons, List.length_map] at hj
        omega
      have hilen : i ≤ steps.length := by omega
      set p := steps.take i with hp
      set q := (steps.take j).drop i with hq
      set r := steps.drop j with hr
      have hpq : p ++ q = steps.take j := by
        have h' : List.take i (List.take j steps) = List.take i steps := by
          rw [List.take_take]
          congr 1
          omega
        rw [hp, hq, ← h']
        exact List.take_append_drop i (steps.take j)
      have hsteps : (p ++ q) ++ r = steps := by
        rw [hpq, hr]
        exact List.take_append_drop j steps
      have hqlen : q.length = j - i := by
        rw [hq, List.length_drop, List.length_take]
        omega
      have hce : walkEnd s p = walkEnd s (p ++ q) := by
        rw [hp, hpq, walkEnd_take steps s i hilen, walkEnd_take steps s j hjlen, hval]
      have hcsplit : Chain g s (p ++ q) ∧ Chain g (walkEnd s (p ++ q)) r := by
        rw [← chain_append]
        rw [hsteps]
        exact hc
      have hcp : Chain g s p := ((chain_append s p q).mp hcsplit.1).1
      have hcnew : Chain g s (p ++ r) := by
        rw [chain_append]
        exact ⟨hcp, hce ▸ hcsplit.2⟩
      have hend : walkEnd s (p ++ r) = walkEnd s steps := by
        rw [walkEnd_append, hce, ← walkEnd_append, hsteps]
      have hqpos : ∀ x ∈ q, 0 ≤ x.2 := by
        intro x hx
        have hsub : q.Sublist steps := by
          rw [hq]
          exact (List.drop_sublist i (steps.take j)).trans (List.take_sublist j steps)
        exact chain_weights_nonneg hwf hnn hs hc x (hsub.mem hx)
      have hcost : walkCost (p ++ r) ≤ walkCost steps := by
        rw [← hsteps, walkCost_append, walkCost_append, walkCost_append]
        have := walkCost_nonneg hqpos
        linarith
      have hlnew : (p ++ r).length ≤ m := by
        have h1 : p.length = i := by
          rw [hp, List.length_take]; omega
        have h2 : r.length = steps.length - j := by
          rw [hr, List.length_drop]
        rw [List.length_append, h1, h2]
        omega
      obtain ⟨steps', hc', hend', hcost', hlen'⟩ := ih (p ++ r) hs hcnew hlnew
      exact ⟨steps', hc', by rw [hend', hend], le_trans hcost' hcost, hlen'⟩

/-! ### Exactness of `ReachableWithinLimit` -/

theorem distMap_sound {g : Graph} {srcs : List Nat} {v : Nat} {c : ℚ}
    (h : distMap g srcs v = some c) :
    ∃ s ∈ srcs, ∃ steps, Chain g s steps ∧ walkEnd s steps = v ∧ walkCost steps = c :=
  realizable_bf g srcs g.n v c h

theorem distMap_complete {g : Graph} {srcs : List Nat} {v : Nat} {B : ℚ}
    (hwf : GraphWF g) (hnn : GraphNonneg g) (hsrc : ∀ s ∈ srcs, s < g.n)
    (h : ReachesWithin g srcs v B) :
    ∃ c, distMap g srcs v = some c ∧ c ≤ B := by
  obtain ⟨s, hs, steps, hc, hend, hcost⟩ := h
  obtain ⟨steps', hc', hend', hcost', hlen'⟩ :=
    walk_shorten hwf hnn steps.length steps (hsrc s hs) hc (le_refl _)
  have hb := bf_bound hwf hsrc g.n s steps' hs hc' (Nat.le_of_lt hlen')
  obtain ⟨x, hx, hxle⟩ := hb (walkCost steps') rfl
  rw [hend', hend] at hx
  exact ⟨x, hx, le_trans hxle (le_trans hcost' hcost)⟩

theorem mem_reachableWithinLimit {g : Graph} {srcs : List Nat} {B : ℚ} {v : Nat} :
    v ∈ ReachableWithinLimit g srcs B ↔
      v < g.n ∧ ∃ c, distMap g srcs v = some c ∧ c ≤ B := by
  unfold ReachableWithinLimit
  rw [List.mem_filter, List.mem_range]
  cases h : distMap g srcs v with
  | none => simp [h]
  | some c => simp [h]

/-- C2: `ReachableWithinLimit` returns exactly the vertices whose true
shortest cost from some source is within the budget (expressed as: some
walk from a source reaches the vertex within the budget), and reports no
vertex twice.  The algorithm itself lives in `glop/util/algorithm`
(not among the provided sources) and is modelled from the spec. -/
theorem c2_reachableWithinLimit_exact (g : Graph) (srcs : List Nat) (B : ℚ)
    (hwf : GraphWF g) (hnn : GraphNonneg g) (hsrc : ∀ s ∈ srcs, s < g.n) :
    (∀ v, v ∈ ReachableWithinLimit g srcs B ↔ ReachesWithin g srcs v B) ∧
      (ReachableWithinLimit g srcs B).Nodup := by
  constructor
  · intro v
    constructor
    · intro hv
      obtain ⟨-, c, hc, hcB⟩ := mem_reachableWithinLimit.mp hv
      obtain ⟨s, hs, steps, hch, hend, hcost⟩ := distMap_sound hc
      exact ⟨s, hs, steps, hch, hend, hcost ▸ hcB⟩
    · intro hv
      obtain ⟨c, hc, hcB⟩ := distMap_complete hwf hnn hsrc hv
      refine mem_reachableWithinLimit.mpr ⟨?_, c, hc, hcB⟩
      obtain ⟨s, hs, steps, hch, hend, -⟩ := hv
      exact hend ▸ chain_end_lt hwf (hsrc s hs) hch
  · exact (List.nodup_range g.n).filter _

/-- Concrete 2-vertex graph used to instantiate hypotheses of the general
pathfinding theorems. -/
def sampleGraph : Graph :=
  ⟨2, fun u => if u = 0 then [(1, (1 : ℚ))] else []⟩

theorem c2_reachableWithinLimit_exact_witness :
    (∀ v, v ∈ ReachableWithinLimit sampleGraph [0] 1 ↔
        ReachesWithin sampleGraph [0] v 1) ∧
      (ReachableWithinLimit sampleGraph [0] 1).Nodup :=
  c2_reachableWithinLimit_exact sampleGraph [0] 1 (by decide) (by decide) (by decide)

/-! ## The level model (`main` package)

Cells carry an immutable terrain and a cached highlight; the grid is
`grid[x][y]` with `len(grid) = dx` and `len(grid[0]) = dy`.  Entity
positions are the integer cell coordinates `int(pos.X), int(pos.Y)`;
the float fractional parts never reach the decision logic. -/

inductive Terrain where
  | Grass
  | Brush
  | Water
  | Dirt
deriving DecidableEq, Repr

inductive Highlight where
  | None
  | Reachable
  | Attackable
  | MouseOver
deriving DecidableEq, Repr

structure CellData where
  terrain : Terrain
  highlight : Highlight
deriving DecidableEq, Repr

instance : Inhabited CellData := ⟨⟨Terrain.Grass, Highlight.None⟩⟩

/-- `CellData.Clear` resets the cached part of a cell. -/
def CellData.clear (c : CellData) : CellData :=
  { c with highlight := Highlight.None }

inductive Command where
  | NoCommand
  | Move
  | Attack
deriving DecidableEq, Repr

/-- The `main` package entity as seen by the level logic: integer cell
position, action points, health, the queued path, the movement-cost map
of its base (`Base.Move_cost`) and the cost/reach of `Base.Weapons[0]`. -/
structure Ent where
  x : Nat
  y : Nat
  ap : Int
  health : Int
  path : List (Nat × Nat)
  moveCost : Terrain → Option Int
  weaponCost : Int
  weaponReach : Int

instance : Inhabited Ent :=
  ⟨⟨0, 0, 0, 0, [], fun _ => none, 0, 0⟩⟩

structure Level where
  grid : List (List CellData)
  cached : Bool
  entities : List Ent
  selected : Option Nat
  command : Command
  reachable : List Nat
  inRange : List Nat

def gridDx (l : Level) : Nat := l.grid.length

def gridDy (l : Level) : Nat := (l.grid.getD 0 []).length

def numVertex (l : Level) : Nat := gridDx l * gridDy l

def fromVertexX (l : Level) (v : Nat) : Nat := v % gridDx l

def fromVertexY (l : Level) (v : Nat) : Nat := v / gridDx l

def toVertex (l : Level) (x y : Nat) : Nat := x + y * gridDx l

def cellAt (l : Level) (x y : Nat) : CellData := (l.grid.getD x []).getD y default

def terrainAt (l : Level) (x y : Nat) : Terrain := (cellAt l x y).terrain

def maxNormi (x y x2 y2 : Int) : Int :=
  let dx := x2 - x
  let dx := if dx < 0 then -dx else dx
  let dy := y2 - y
  let dy := if dy < 0 then -dy else dy
  if dx > dy then dx else dy

/-! ### The grid graph adapter (`unitGraph`) -/

/-- `costToMove` of `unitGraph`; assumes `src` and `dst` are adjacent.
A cost of `-1` marks an impassable move (a terrain missing from the
mover's `move_cost` map). -/
def costToMove (l : Level) (mc : Terrain → Option Int) (src dst : Nat) : ℚ :=
  match mc (terrainAt l (fromVertexX l dst) (fromVertexY l dst)) with
  | none => -1
  | some cc =>
    if fromVertexX l src = fromVertexX l dst ∨ fromVertexY l src = fromVertexY l dst
    then (cc : ℚ)
    else
      match mc (terrainAt l (fromVertexX l src) (fromVertexY l dst)),
            mc (terrainAt l (fromVertexX l dst) (fromVertexY l src)) with
      | none, _ => -1
      | some _, none => -1
      | some ca, some cb => max (((ca : ℚ) + (cb : ℚ)) / 2) (cc : ℚ)

def occupiedAt (l : Level) (nx ny : Int) : Bool :=
  l.entities.any fun e => decide ((e.x : Int) = nx ∧ (e.y : Int) = ny)

/-- The eight neighbour offsets in the `dx`/`dy` loop order of `Adjacent`,
split by orthogonality; orthogonal neighbours are reported first. -/
def orthoOffsets : List (Int × Int) := [(-1, 0), (0, -1), (0, 1), (1, 0)]

def diagOffsets : List (Int × Int) := [(-1, -1), (-1, 1), (1, -1), (1, 1)]

/-- One candidate neighbour of `Adjacent`: bounds check, occupancy check
and the `costToMove < 0` exclusion. -/
def candOf (l : Level) (mc : Terrain → Option Int) (x y : Nat) (off : Int × Int) :
    Option (Nat × ℚ) :=
  if (x : Int) + off.1 < 0 ∨ (gridDx l : Int) ≤ (x : Int) + off.1 then none
  else if (y : Int) + off.2 < 0 ∨ (gridDy l : Int) ≤ (y : Int) + off.2 then none
  else if occupiedAt l ((x : Int) + off.1) ((y : Int) + off.2) then none
  else if costToMove l mc (toVertex l x y)
      (toVertex l ((x : Int) + off.1).toNat ((y : Int) + off.2).toNat) < 0 then none
  else some (toVertex l ((x : Int) + off.1).toNat ((y : Int) + off.2).toNat,
    costToMove l mc (toVertex l x y)
      (toVertex l ((x : Int) + off.1).toNat ((y : Int) + off.2).toNat))

/-- `unitGraph.Adjacent`: orthogonal neighbours first, then diagonal. -/
def adjacentOf (l : Level) (mc : Terrain → Option Int) (v : Nat) : List (Nat × ℚ) :=
  let x := fromVertexX l v
  let y := fromVertexY l v
  orthoOffsets.filterMap (candOf l mc x y) ++ diagOffsets.filterMap (candOf l mc x y)

def levelGraph (l : Level) (mc : Terrain → Option Int) : Graph :=
  ⟨numVertex l, adjacentOf l mc⟩

/-! ### Diagonal edge weights (claim C1) -/

theorem fromVertexX_toVertex (l : Level) {x : Nat} (y : Nat) (hx : x < gridDx l) :
    fromVertexX l (toVertex l x y) = x := by
  unfold fromVertexX toVertex
  rw [Nat.add_mul_mod_self_right]
  exact Nat.mod_eq_of_lt hx

theorem fromVertexY_toVertex (l : Level) {x : Nat} (y : Nat) (hx : x < gridDx l) :
    fromVertexY l (toVertex l x y) = y := by
  unfold fromVertexY toVertex
  rw [Nat.add_mul_div_right _ _ (Nat.zero_lt_of_lt hx),
    Nat.div_eq_of_lt hx, Nat.zero_add]

theorem toVertex_inj (l : Level) {x x' y y' : Nat}
    (hx : x < gridDx l) (hx' : x' < gridDx l)
    (h : toVertex l x y = toVertex l x' y') : x = x' ∧ y = y' := by
  have h1 := congrArg (fun v => v % gridDx l) h
  have h2 := congrArg (fun v => v / gridDx l) h
  simp only [toVertex] at h1 h2
  rw [Nat.add_mul_mod_self_right, Nat.add_mul_mod_self_right,
    Nat.mod_eq_of_lt hx, Nat.mod_eq_of_lt hx'] at h1
  have hdx : 0 < gridDx l := Nat.zero_lt_of_lt hx
  rw [Nat.add_mul_div_right _ _ hdx, Nat.add_mul_div_right _ _ hdx,
    Nat.div_eq_of_lt hx, Nat.div_eq_of_lt hx'] at h2
  omega

/-- `costToMove` on a diagonal pair with all three terrains passable. -/
theorem costToMove_diag_passable (l : Level) (mc : Terrain → Option Int)
    {x y x2 y2 : Nat} {ca cb cc : Int}
    (hne : x ≠ x2 ∧ y ≠ y2) (hx : x < gridDx l) (hx2 : x2 < gridDx l)
    (ha : mc (terrainAt l x y2) = some ca) (hb : mc (terrainAt l x2 y) = some cb)
    (hc : mc (terrainAt l x2 y2) = some cc) :
    costToMove l mc (toVertex l x y) (toVertex l x2 y2) =
      max (((ca : ℚ) + (cb : ℚ)) / 2) (cc : ℚ) := by
  simp only [costToMove, fromVertexX_toVertex l y hx, fromVertexY_toVertex l y hx,
    fromVertexX_toVertex l y2 hx2, fromVertexY_toVertex l y2 hx2, ha, hb, hc]
  rw [if_neg (not_or.mpr ⟨hne.1, hne.2⟩)]

/-- `costToMove` on a diagonal pair with an impassable corner or
destination. -/
theorem costToMove_diag_blocked (l : Level) (mc : Terrain → Option Int)
    {x y x2 y2 : Nat}
    (hne : x ≠ x2 ∧ y ≠ y2) (hx : x < gridDx l) (hx2 : x2 < gridDx l)
    (h : mc (terrainAt l x y2) = none ∨ mc (terrainAt l x2 y) = none ∨
      mc (terrainAt l x2 y2) = none) :
    costToMove l mc (toVertex l x y) (toVertex l x2 y2) = -1 := by
  have e1 := fromVertexX_toVertex l y hx
  have e2 := fromVertexY_toVertex l y hx
  have e3 := fromVertexX_toVertex l y2 hx2
  have e4 := fromVertexY_toVertex l y2 hx2
  rcases h with h | h | h
  · cases hcc : mc (terrainAt l x2 y2) with
    | none => simp [costToMove, e1, e2, e3, e4, hcc]
    | some cc => simp [costToMove, e1, e2, e3, e4, hcc, h, hne.1, hne.2]
  · cases hcc : mc (terrainAt l x2 y2) with
    | none => simp [costToMove, e1, e2, e3, e4, hcc]
    | some cc =>
      cases hca : mc (terrainAt l x y2) with
      | none => simp [costToMove, e1, e2, e3, e4, hcc, hca, hne.1, hne.2]
      | some ca => simp [costToMove, e1, e2, e3, e4, hcc, hca, h, hne.1, hne.2]
  · simp [costToMove, e1, e2, e3, e4, h]

/-- Destructing a produced candidate neighbour. -/
theorem candOf_some (l : Level) (mc : Terrain → Option Int) {x y : Nat}
    {off : Int × Int} {u : Nat} {w : ℚ}
    (h : candOf l mc x y off = some (u, w)) :
    ¬((x : Int) + off.1 < 0 ∨ (gridDx l : Int) ≤ (x : Int) + off.1) ∧
    ¬((y : Int) + off.2 < 0 ∨ (gridDy l : Int) ≤ (y : Int) + off.2) ∧
    occupiedAt l ((x : Int) + off.1) ((y : Int) + off.2) = false ∧
    u = toVertex l ((x : Int) + off.1).toNat ((y : Int) + off.2).toNat ∧
    w = costToMove l mc (toVertex l x y) u ∧ ¬ w < 0 := by
  unfold candOf at h
  split_ifs at h with h1 h2 h3 h4
  injection h with h
  injection h with hu hw
  refine ⟨h1, h2, by simpa using h3, hu.symm, ?_, ?_⟩
  · rw [← hu, ← hw]
  · rw [← hw]; exact h4

theorem mem_adjacentOf {l : Level} {mc : Terrain → Option Int} {v u : Nat} {w : ℚ} :
    (u, w) ∈ adjacentOf l mc v ↔
      ∃ off, (off ∈ orthoOffsets ∨ off ∈ diagOffsets) ∧
        candOf l mc (fromVertexX l v) (fromVertexY l v) off = some (u, w) := by
  unfold adjacentOf
  simp only [List.mem_append, List.mem_filterMap]
  constructor
  · rintro (⟨off, hoff, hc⟩ | ⟨off, hoff, hc⟩)
    · exact ⟨off, Or.inl hoff, hc⟩
    · exact ⟨off, Or.inr hoff, hc⟩
  · rintro ⟨off, hoff | hoff, hc⟩
    · exact Or.inl ⟨off, hoff, hc⟩
    · exact Or.inr ⟨off, hoff, hc⟩

theorem candOf_pass (l : Level) (mc : Terrain → Option Int) {x y x2 y2 : Nat}
    (off : Int × Int)
    (hoffx : (x : Int) + off.1 = x2) (hoffy : (y : Int) + off.2 = y2)
    (hx2 : x2 < gridDx l) (hy2 : y2 < gridDy l)
    (hunocc : occupiedAt l (x2 : Int) (y2 : Int) = false)
    (hcost : ¬ costToMove l mc (toVertex l x y) (toVertex l x2 y2) < 0) :
    candOf l mc x y off = some (toVertex l x2 y2,
      costToMove l mc (toVertex l x y) (toVertex l x2 y2)) := by
  unfold candOf
  rw [hoffx, hoffy]
  simp only [Int.toNat_natCast]
  rw [if_neg (by omega), if_neg (by omega), hunocc]
  simp only [Bool.false_eq_true, if_false]
  rw [if_neg hcost]

/-- C1: for every diagonally adjacent pair (src, dst), the edge weight of
the grid graph adapter is `max((cost cornerA + cost cornerB)/2, cost dst)`
where the corners are `grid[x][y2]` and `grid[x2][y]`; and if either
corner's terrain or the destination's terrain is missing from the mover's
cost map, `costToMove` yields the `-1` sentinel and `Adjacent` produces no
edge to the destination at all. -/
theorem c1_diagonal_edge (l : Level) (mc : Terrain → Option Int)
    (x y x2 y2 : Nat)
    (hdx : x2 = x + 1 ∨ x = x2 + 1) (hdy : y2 = y + 1 ∨ y = y2 + 1)
    (hx : x < gridDx l) (hx2 : x2 < gridDx l)
    (hy : y < gridDy l) (hy2 : y2 < gridDy l) :
    (∀ ca cb cc : Int, mc (terrainAt l x y2) = some ca →
        mc (terrainAt l x2 y) = some cb → mc (terrainAt l x2 y2) = some cc →
        0 ≤ cc →
        costToMove l mc (toVertex l x y) (toVertex l x2 y2) =
            max (((ca : ℚ) + (cb : ℚ)) / 2) (cc : ℚ) ∧
        (occupiedAt l (x2 : Int) (y2 : Int) = false →
          (toVertex l x2 y2, max (((ca : ℚ) + (cb : ℚ)) / 2) (cc : ℚ)) ∈
            adjacentOf l mc (toVertex l x y)) ∧
        (∀ w : ℚ, (toVertex l x2 y2, w) ∈ adjacentOf l mc (toVertex l x y) →
          w = max (((ca : ℚ) + (cb : ℚ)) / 2) (cc : ℚ))) ∧
    ((mc (terrainAt l x y2) = none ∨ mc (terrainAt l x2 y) = none ∨
        mc (terrainAt l x2 y2) = none) →
      costToMove l mc (toVertex l x y) (toVertex l x2 y2) = -1 ∧
        ∀ w : ℚ, (toVertex l x2 y2, w) ∉ adjacentOf l mc (toVertex l x y)) := by
  have hne : x ≠ x2 ∧ y ≠ y2 := by omega
  have hfx := fromVertexX_toVertex l y hx
  have hfy := fromVertexY_toVertex l y hx
  constructor
  · intro ca cb cc ha hb hc hcc0
    have heq := costToMove_diag_passable l mc hne hx hx2 ha hb hc
    refine ⟨heq, ?_, ?_⟩
    · intro hunocc
      have hcost : ¬ costToMove l mc (toVertex l x y) (toVertex l x2 y2) < 0 := by
        rw [heq]
        have h1 : (0 : ℚ) ≤ (cc : ℚ) := by exact_mod_cast hcc0
        have h2 := le_max_right (((ca : ℚ) + (cb : ℚ)) / 2) (cc : ℚ)
        linarith
      have hoff : ((x2 : Int) - (x : Int), (y2 : Int) - (y : Int)) ∈ diagOffsets := by
        have e1 : (x2 : Int) - (x : Int) = 1 ∨ (x2 : Int) - (x : Int) = -1 := by omega
        have e2 : (y2 : Int) - (y : Int) = 1 ∨ (y2 : Int) - (y : Int) = -1 := by omega
        rcases e1 with e1 | e1 <;> rcases e2 with e2 | e2 <;> rw [e1, e2] <;> decide
      have hcand := candOf_pass l mc ((x2 : Int) - (x : Int), (y2 : Int) - (y : Int))
        (by omega) (by omega) hx2 hy2 hunocc hcost
      rw [heq] at hcand
      exact mem_adjacentOf.mpr ⟨_, Or.inr hoff, by rw [hfx, hfy]; exact hcand⟩
    · intro w hw
      obtain ⟨off, -, hcand⟩ := mem_adjacentOf.mp hw
      rw [hfx, hfy] at hcand
      obtain ⟨-, -, -, -, hwc, -⟩ := candOf_some l mc hcand
      rw [hwc, heq]
  · intro h
    have heq := costToMove_diag_blocked l mc hne hx hx2 h
    refine ⟨heq, ?_⟩
    intro w hw
    obtain ⟨off, -, hcand⟩ := mem_adjacentOf.mp hw
    rw [hfx, hfy] at hcand
    obtain ⟨-, -, -, -, hwc, hwneg⟩ := candOf_some l mc hcand
    rw [hwc, heq] at hwneg
    exact hwneg (by norm_num)

/-- A sample movement-cost map: grass and dirt cost 1, brush costs 2,
water is impassable. -/
def mcSample : Terrain → Option Int
  | Terrain.Grass => some 1
  | Terrain.Brush => some 2
  | Terrain.Water => none
  | Terrain.Dirt => some 1

/-- A 2×2 grid (`grid[x][y]`): (0,0) grass, (0,1) grass, (1,0) brush,
(1,1) grass. -/
def gridC : List (List CellData) :=
  [[⟨Terrain.Grass, Highlight.None⟩, ⟨Terrain.Grass, Highlight.None⟩],
   [⟨Terrain.Brush, Highlight.None⟩, ⟨Terrain.Grass, Highlight.None⟩]]

def entC : Ent := ⟨0, 0, 1, 10, [], mcSample, 0, 0⟩

def levelC : Level := ⟨gridC, true, [entC], some 0, Command.NoCommand, [], []⟩

theorem c1_diagonal_edge_witness :
    (∀ ca cb cc : Int, mcSample (terrainAt levelC 0 1) = some ca →
        mcSample (terrainAt levelC 1 0) = some cb →
        mcSample (terrainAt levelC 1 1) = some cc →
        0 ≤ cc →
        costToMove levelC mcSample (toVertex levelC 0 0) (toVertex levelC 1 1) =
            max (((ca : ℚ) + (cb : ℚ)) / 2) (cc : ℚ) ∧
        (occupiedAt levelC ((1 : Nat) : Int) ((1 : Nat) : Int) = false →
          (toVertex levelC 1 1, max (((ca : ℚ) + (cb : ℚ)) / 2) (cc : ℚ)) ∈
            adjacentOf levelC mcSample (toVertex levelC 0 0)) ∧
        (∀ w : ℚ, (toVertex levelC 1 1, w) ∈ adjacentOf levelC mcSample (toVertex levelC 0 0) →
          w = max (((ca : ℚ) + (cb : ℚ)) / 2) (cc : ℚ))) ∧
    ((mcSample (terrainAt levelC 0 1) = none ∨ mcSample (terrainAt levelC 1 0) = none ∨
        mcSample (terrainAt levelC 1 1) = none) →
      costToMove levelC mcSample (toVertex levelC 0 0) (toVertex levelC 1 1) = -1 ∧
        ∀ w : ℚ, (toVertex levelC 1 1, w) ∉ adjacentOf levelC mcSample (toVertex levelC 0 0)) :=
  c1_diagonal_edge levelC mcSample 0 0 1 1 (Or.inl rfl) (Or.inl rfl)
    (by decide) (by decide) (by decide) (by decide)

/-! ## Level operations (`main` package) -/

/-- `Level.clearCache`: early-returns when the cache is already invalid,
otherwise clears every cell's cached data and drops the flag. -/
def clearCache (l : Level) : Level :=
  if l.cached then
    { l with grid := l.grid.map fun row => row.map CellData.clear, cached := false }
  else l

def setCellHighlight (g : List (List CellData)) (x y : Nat) (h : Highlight) :
    List (List CellData) :=
  g.set x ((g.getD x []).set y { (g.getD x []).getD y default with highlight := h })

/-- `Level.maintainCommand`: repaints the highlights of the active command
into the grid. -/
def paintCells (l : Level) (vs : List Nat) (h : Highlight)
    (g : List (List CellData)) : List (List CellData) :=
  vs.foldl (fun g v => setCellHighlight g (fromVertexX l v) (fromVertexY l v) h) g

def maintainCommand (l : Level) : Level :=
  match l.command with
  | Command.Move =>
    { l with grid := paintCells l l.reachable Highlight.Reachable l.grid }
  | Command.Attack =>
    { l with grid := paintCells l l.inRange Highlight.Attackable l.grid }
  | Command.NoCommand => l

/-- The `in_range` list computed by `PrepAttack`: every other entity
within the selected entity's weapon reach (ub-norm distance). -/
def prepAttackRange (l : Level) (si : Nat) : List Nat :=
  (List.range l.entities.length).filterMap fun i =>
    if i = si then none
    else
      let e := l.entities.getD i default
      let sel := l.entities.getD si default
      if sel.weaponReach <
          maxNormi (e.x : Int) (e.y : Int) (sel.x : Int) (sel.y : Int) then none
      else some (toVertex l e.x e.y)

/-- `Level.PrepAttack`: checks selection and weapon cost, recomputes the
`in_range` list, and only on a non-empty list sets the command and
invalidates the cache.  Note the list is overwritten even when the
function returns without activating the command. -/
def PrepAttack (l : Level) : Level :=
  match l.selected with
  | none => l
  | some si =>
    let sel := l.entities.getD si default
    if sel.ap < sel.weaponCost then l
    else
      let ir := prepAttackRange l si
      if ir = [] then { l with inRange := ir }
      else clearCache { l with inRange := ir, command := Command.Attack }

/-- Outcome of `weapon.Damage(attacker, target)`; the `Weapon` interface
is not among the provided sources, so the resolved result is passed in. -/
structure AttackRes where
  connect : Bool
  piercing : Int

def spendWeaponAp (e : Ent) : Ent := { e with ap := e.ap - e.weaponCost }

/-- `Level.DoAttack`.  The weapon cost is deducted from the attacker's AP
before the range check; the sprite commands issued are returned as a
list. -/
def DoAttack (l : Level) (ti : Nat) (res : AttackRes) : Level × List String :=
  match l.selected with
  | none => (l, [])
  | some si =>
    let sel := l.entities.getD si default
    if sel.ap < sel.weaponCost then (l, [])
    else
      let ents1 := l.entities.set si (spendWeaponAp sel)
      let l1 := { l with entities := ents1 }
      let tgt := l1.entities.getD ti default
      if sel.weaponReach <
          maxNormi (tgt.x : Int) (tgt.y : Int) (sel.x : Int) (sel.y : Int) then (l1, [])
      else
        let atkSig := if 2 < sel.weaponReach then "ranged" else "melee"
        if res.connect then
          let tgt1 := { tgt with health := tgt.health - res.piercing }
          let l2 := { l1 with entities := l1.entities.set ti tgt1 }
          let outcome := if tgt1.health ≤ 0 then "killed" else "damaged"
          ({ clearCache l2 with command := Command.NoCommand },
            [atkSig, "defend", outcome])
        else
          ({ clearCache l1 with command := Command.NoCommand },
            [atkSig, "defend", "undamaged"])

/-- `Level.PrepMove`: computes the reachable set within the selected
entity's AP; the list is stored even when empty (in which case the
command is not activated). -/
def PrepMove (l : Level) : Level :=
  match l.selected with
  | none => l
  | some si =>
    let sel := l.entities.getD si default
    let r := ReachableWithinLimit (levelGraph l sel.moveCost)
      [toVertex l sel.x sel.y] ((sel.ap : ℚ))
    if r = [] then { l with reachable := r }
    else clearCache { l with reachable := r, command := Command.Move }

/-! ### Shortest path (`algorithm.Dijkstra`), modelled from the spec -/

/-- Modelled from the spec: among the targets pick one of minimal final
distance (`none` when no target is reachable). -/
def bestTarget (d : Nat → Option ℚ) (tgts : List Nat) : Option (Nat × ℚ) :=
  tgts.foldl
    (fun acc t =>
      match d t with
      | none => acc
      | some c =>
        match acc with
        | none => some (t, c)
        | some (t', c') => if c < c' then some (t, c) else some (t', c'))
    none

/-- A predecessor of `cur` on a minimal-cost walk: the first vertex `u`
with an edge to `cur` through which `cur`'s final distance is attained. -/
def findPred (g : Graph) (d : Nat → Option ℚ) (cur : Nat) : Option Nat :=
  (List.range g.n).findSome? fun u =>
    ((g.adj u).find? fun p =>
      decide (p.1 = cur) && decide (shift (d u) p.2 = d cur)).map fun _ => u

/-- Walk the predecessor links back to a source, with fuel to guarantee
termination; an empty result means reconstruction failed. -/
def buildPath (g : Graph) (d : Nat → Option ℚ) (srcs : List Nat) :
    Nat → Nat → List Nat
  | 0, _ => []
  | fuel + 1, cur =>
    if cur ∈ srcs then [cur]
    else
      match findPred g d cur with
      | none => []
      | some u =>
        match buildPath g d srcs fuel u with
        | [] => []
        | p => p ++ [cur]

/-- Modelled from the spec: `algorithm.Dijkstra` returns the minimum total
cost from the sources to the targets together with the vertex sequence
achieving it, and an empty path with infinite (`none`) cost when no
target is reachable. -/
def dijkstra (g : Graph) (srcs tgts : List Nat) : Option ℚ × List Nat :=
  match bestTarget (distMap g srcs) tgts with
  | none => (none, [])
  | some (t, c) => (some c, buildPath g (distMap g srcs) srcs (g.n + 1) t)

/-- `Level.DoMove`: runs Dijkstra from the selected entity's cell to the
clicked cell and — when a path exists and its cost *truncated to an
integer* (`int(ap)` in the source) does not exceed the entity's AP —
replaces the entity's path queue with the path's cells minus the start.
Edge weights are non-negative, so Go's truncation toward zero is the
floor. -/
def DoMove (l : Level) (cx cy : Nat) : Level :=
  match l.selected with
  | none => l
  | some si =>
    let sel := l.entities.getD si default
    let r := dijkstra (levelGraph l sel.moveCost)
      [toVertex l sel.x sel.y] [toVertex l cx cy]
    if r.2 = [] then l
    else
      match r.1 with
      | none => l
      | some c =>
        if sel.ap < ⌊c⌋ then l
        else
          let newPath := (r.2.drop 1).map fun v => (fromVertexX l v, fromVertexY l v)
          let ents1 := l.entities.set si { sel with path := newPath }
          let l1 := { l with entities := ents1, reachable := ([] : List Nat) }
          { clearCache l1 with command := Command.NoCommand }

/-! ### Per-frame think -/

/-- Modelled from the spec: the per-tick `entity.Think` advances the
entity one queued path cell per tick (multi-cell paths are consumed one
cell per tick by the external stepper); with an empty queue the position
is unchanged. -/
def entThink (e : Ent) : Ent :=
  match e.path with
  | [] => e
  | c :: rest => { e with x := c.1, y := c.2, path := rest }

/-- One iteration of the entity loop of `Level.Think`: remember the cell
before the entity thinks, and clear the cache when it changed. -/
def entityStep (acc : Level) (i : Nat) : Level :=
  if (entThink (acc.entities.getD i default)).x ≠ (acc.entities.getD i default).x ∨
      (entThink (acc.entities.getD i default)).y ≠ (acc.entities.getD i default).y then
    clearCache { acc with
      entities := acc.entities.set i (entThink (acc.entities.getD i default)) }
  else
    { acc with
      entities := acc.entities.set i (entThink (acc.entities.getD i default)) }

def entityPhase (l : Level) : Level :=
  (List.range l.entities.length).foldl entityStep l

/-- `Level.Think`: advance all entities (invalidating the cache on any
cell change), repaint the command highlights, then draw every tile plus a
*local copy* of the moused-over cell and of the selected entity's cell;
the returned list is the sequence of flattened cell drawables.  `mx`/`my`
are the board coordinates of the cursor as truncated by the source
(`int(bx)`, `int(by)`). -/
def think (l : Level) (mx my : Int) : Level × List CellData :=
  let l2 := maintainCommand (entityPhase l)
  let tiles := l2.grid.foldr (fun row acc => row ++ acc) []
  let mouseDraw :=
    if 0 ≤ mx ∧ 0 ≤ my ∧ mx < (gridDx l2 : Int) ∧ my < (gridDy l2 : Int) then
      [{ cellAt l2 mx.toNat my.toNat with highlight := Highlight.MouseOver }]
    else []
  let selDraw :=
    match l2.selected with
    | none => []
    | some si =>
      let e := l2.entities.getD si default
      [{ cellAt l2 e.x e.y with highlight := Highlight.Reachable }]
  ({ l2 with cached := true }, tiles ++ mouseDraw ++ selDraw)

/-! ### List index helpers -/

theorem getD_set_self {α : Type} [Inhabited α] :
    ∀ (l : List α) (i : Nat) (a : α), i < l.length →
      (l.set i a).getD i default = a := by
  intro l
  induction l with
  | nil => intro i a h; cases h
  | cons x xs ih =>
    intro i a h
    cases i with
    | zero => rfl
    | succ i => exact ih i a (by simpa using h)

theorem getD_set_ne {α : Type} [Inhabited α] :
    ∀ (l : List α) {i j : Nat} (a : α), i ≠ j →
      (l.set i a).getD j default = l.getD j default := by
  intro l
  induction l with
  | nil => intro i j a _; rfl
  | cons x xs ih =>
    intro i j a h
    cases i with
    | zero =>
      cases j with
      | zero => exact absurd rfl h
      | succ j => rfl
    | succ i =>
      cases j with
      | zero => rfl
      | succ j => exact ih a (fun hc => h (by rw [hc]))

theorem mem_of_mem_set {α : Type} :
    ∀ (l : List α) (i : Nat) (b a : α), a ∈ l.set i b → a = b ∨ a ∈ l := by
  intro l
  induction l with
  | nil => intro i b a h; cases h
  | cons x xs ih =>
    intro i b a h
    cases i with
    | zero =>
      rcases List.mem_cons.mp h with h | h
      · exact Or.inl h
      · exact Or.inr (List.mem_cons_of_mem x h)
    | succ i =>
      rcases List.mem_cons.mp h with h | h
      · exact Or.inr (h ▸ List.mem_cons_self x xs)
      · rcases ih i b a h with h | h
        · exact Or.inl h
        · exact Or.inr (List.mem_cons_of_mem x h)

theorem getD_mem_or_eq {α : Type} :
    ∀ (l : List α) (i : Nat) (d : α), l.getD i d ∈ l ∨ l.getD i d = d := by
  intro l
  induction l with
  | nil => intro i d; exact Or.inr rfl
  | cons x xs ih =>
    intro i d
    cases i with
    | zero => exact Or.inl (List.mem_cons_self x xs)
    | succ i =>
      rcases ih i d with h | h
      · exact Or.inl (List.mem_cons_of_mem x h)
      · exact Or.inr h

/-! ### The highlight cache invariant (claim C7) -/

def allClear (g : List (List CellData)) : Prop :=
  ∀ row ∈ g, ∀ c ∈ row, c.highlight = Highlight.None

instance (g : List (List CellData)) : Decidable (allClear g) := by
  unfold allClear; infer_instance

/-- An invalid cache flag means the cells are already cleared; this holds
at every frame boundary. -/
def cacheInv (l : Level) : Prop := l.cached = false → allClear l.grid

/-- The entity's integer cell position changes when it thinks. -/
def moveAt (e : Ent) : Prop := (entThink e).x ≠ e.x ∨ (entThink e).y ≠ e.y

instance (e : Ent) : Decidable (moveAt e) := by
  unfold moveAt; infer_instance

theorem clearCache_clears (l : Level) (hinv : cacheInv l) :
    allClear (clearCache l).grid ∧ (clearCache l).cached = false := by
  by_cases hc : l.cached
  · rw [clearCache, if_pos hc]
    refine ⟨?_, rfl⟩
    intro row hrow c hcell
    obtain ⟨row0, hrow0, rfl⟩ := List.mem_map.mp hrow
    obtain ⟨c0, hc0, rfl⟩ := List.mem_map.mp hcell
    rfl
  · rw [clearCache, if_neg hc]
    have hf : l.cached = false := Bool.not_eq_true l.cached ▸ hc
    exact ⟨hinv hf, hf⟩

theorem clearCache_entities (l : Level) : (clearCache l).entities = l.entities := by
  unfold clearCache; split <;> rfl

theorem clearCache_inv (l : Level) (h : cacheInv l) : cacheInv (clearCache l) :=
  fun _ => (clearCache_clears l h).1

theorem entityStep_entities (acc : Level) (i : Nat) :
    (entityStep acc i).entities =
      acc.entities.set i (entThink (acc.entities.getD i default)) := by
  unfold entityStep
  split
  · rw [clearCache_entities]
  · rfl

theorem entityStep_inv (acc : Level) (i : Nat) (h : cacheInv acc) :
    cacheInv (entityStep acc i) := by
  unfold entityStep
  split
  · exact clearCache_inv _ h
  · exact h

theorem entityStep_keepclear (acc : Level) (i : Nat)
    (hg : allClear acc.grid) (hcf : acc.cached = false) :
    allClear (entityStep acc i).grid ∧ (entityStep acc i).cached = false := by
  unfold entityStep
  split
  · rw [clearCache, if_neg (by rw [show ({ acc with entities := acc.entities.set i (entThink (acc.entities.getD i default)) } : Level).cached = acc.cached from rfl, hcf]; exact Bool.false_ne_true)]
    exact ⟨hg, hcf⟩
  · exact ⟨hg, hcf⟩

theorem entityStep_clear (acc : Level) (i : Nat) (h : cacheInv acc)
    (hmv : moveAt (acc.entities.getD i default)) :
    allClear (entityStep acc i).grid ∧ (entityStep acc i).cached = false := by
  have hmv' : (entThink (acc.entities.getD i default)).x ≠ (acc.entities.getD i default).x ∨
      (entThink (acc.entities.getD i default)).y ≠ (acc.entities.getD i default).y := hmv
  unfold entityStep
  rw [if_pos hmv']
  exact clearCache_clears _ h

theorem entityFold_keepclear :
    ∀ (idxs : List Nat) (acc : Level), allClear acc.grid → acc.cached = false →
      allClear ((idxs.foldl entityStep acc).grid) ∧
        (idxs.foldl entityStep acc).cached = false := by
  intro idxs
  induction idxs with
  | nil => intro acc hg hc; exact ⟨hg, hc⟩
  | cons i rest ih =>
    intro acc hg hc
    obtain ⟨hg', hc'⟩ := entityStep_keepclear acc i hg hc
    exact ih (entityStep acc i) hg' hc'

theorem entityFold_clear :
    ∀ (idxs : List Nat), idxs.Nodup → ∀ (acc : Level), cacheInv acc →
      (∃ i ∈ idxs, moveAt (acc.entities.getD i default)) →
      allClear ((idxs.foldl entityStep acc).grid) ∧
        (idxs.foldl entityStep acc).cached = false := by
  intro idxs
  induction idxs with
  | nil =>
    intro _ acc _ h
    obtain ⟨i, hi, -⟩ := h
    cases hi
  | cons i0 rest ih =>
    intro hnd acc hinv hmv
    rw [List.nodup_cons] at hnd
    by_cases hm0 : moveAt (acc.entities.getD i0 default)
    · obtain ⟨hg', hc'⟩ := entityStep_clear acc i0 hinv hm0
      exact entityFold_keepclear rest (entityStep acc i0) hg' hc'
    · obtain ⟨i, hi, hmi⟩ := hmv
      rcases List.mem_cons.mp hi with rfl | hi
      · exact absurd hmi hm0
      · refine ih hnd.2 (entityStep acc i0) (entityStep_inv acc i0 hinv) ⟨i, hi, ?_⟩
        rw [entityStep_entities,
          getD_set_ne _ _ (fun hc => hnd.1 (by rw [hc]; exact hi))]
        exact hmi

/-- C7: whenever some entity's integer cell position changes during the
entity phase of `Think`, every cell's cached highlight is reset and the
`cached` flag becomes false before `maintainCommand` recomputes the
highlights (the state `Think` hands to the rest of the frame is exactly
`maintainCommand` of the cleared entity-phase state). -/
theorem c7_position_change_clears_cache (l : Level) (mx my : Int)
    (hinv : l.cached = false → allClear l.grid)
    (hmv : ∃ i, i < l.entities.length ∧ moveAt (l.entities.getD i default)) :
    allClear (entityPhase l).grid ∧ (entityPhase l).cached = false ∧
      (think l mx my).1 = { maintainCommand (entityPhase l) with cached := true } := by
  obtain ⟨i, hi, hm⟩ := hmv
  have h := entityFold_clear (List.range l.entities.length)
    (List.nodup_range l.entities.length) l hinv ⟨i, List.mem_range.mpr hi, hm⟩
  exact ⟨h.1, h.2, rfl⟩

/-- A level whose single entity has a queued path cell and whose cache is
marked valid. -/
def entMove : Ent := ⟨0, 0, 5, 10, [(1, 1)], mcSample, 0, 0⟩

def levelMove : Level := ⟨gridC, true, [entMove], some 0, Command.NoCommand, [], []⟩

theorem c7_position_change_clears_cache_witness :
    allClear (entityPhase levelMove).grid ∧ (entityPhase levelMove).cached = false ∧
      (think levelMove 0 0).1 =
        { maintainCommand (entityPhase levelMove) with cached := true } :=
  c7_position_change_clears_cache levelMove 0 0 (by decide) ⟨0, by decide, by decide⟩

/-! ### The grid never stores a MouseOver highlight (claim C10) -/

def noMouseOver (g : List (List CellData)) : Prop :=
  ∀ row ∈ g, ∀ c ∈ row, c.highlight ≠ Highlight.MouseOver

instance (g : List (List CellData)) : Decidable (noMouseOver g) := by
  unfold noMouseOver; infer_instance

theorem noMouseOver_of_allClear (g : List (List CellData)) (h : allClear g) :
    noMouseOver g := by
  intro row hrow c hcell
  rw [h row hrow c hcell]
  exact fun hc => Highlight.noConfusion hc

theorem noMouseOver_clearCache (l : Level) (h : noMouseOver l.grid) :
    noMouseOver (clearCache l).grid := by
  unfold clearCache
  split
  · intro row hrow c hcell
    obtain ⟨row0, hrow0, rfl⟩ := List.mem_map.mp hrow
    obtain ⟨c0, hc0, rfl⟩ := List.mem_map.mp hcell
    exact fun hc => Highlight.noConfusion hc
  · exact h

theorem noMouseOver_setCellHighlight (g : List (List CellData)) (x y : Nat)
    (h : Highlight) (hh : h ≠ Highlight.MouseOver) (hg : noMouseOver g) :
    noMouseOver (setCellHighlight g x y h) := by
  intro row hrow c hcell
  rcases mem_of_mem_set _ _ _ _ hrow with rfl | hrow'
  · rcases mem_of_mem_set _ _ _ _ hcell with rfl | hcell'
    · exact hh
    · rcases getD_mem_or_eq g x [] with hmem | hdef
      · exact hg _ hmem c hcell'
      · rw [hdef] at hcell'; cases hcell'
  · exact hg row hrow' c hcell

theorem noMouseOver_paintCells (l : Level) (vs : List Nat) (h : Highlight)
    (hh : h ≠ Highlight.MouseOver) :
    ∀ (g : List (List CellData)), noMouseOver g → noMouseOver (paintCells l vs h g) := by
  induction vs with
  | nil => intro g hg; exact hg
  | cons v rest ih =>
    intro g hg
    exact ih _ (noMouseOver_setCellHighlight g _ _ h hh hg)

theorem noMouseOver_maintainCommand (l : Level) (h : noMouseOver l.grid) :
    noMouseOver (maintainCommand l).grid := by
  unfold maintainCommand
  cases l.command with
  | NoCommand => exact h
  | Move => exact noMouseOver_paintCells l l.reachable _ (by decide) _ h
  | Attack => exact noMouseOver_paintCells l l.inRange _ (by decide) _ h

theorem noMouseOver_entityStep (acc : Level) (i : Nat) (h : noMouseOver acc.grid) :
    noMouseOver (entityStep acc i).grid := by
  unfold entityStep
  split
  · exact noMouseOver_clearCache _ h
  · exact h

theorem noMouseOver_entityPhase (l : Level) (h : noMouseOver l.grid) :
    noMouseOver (entityPhase l).grid := by
  unfold entityPhase
  generalize List.range l.entities.length = idxs
  induction idxs generalizing l with
  | nil => exact h
  | cons i rest ih =>
    exact ih (entityStep l i) (noMouseOver_entityStep l i h)

/-- The states a `Level` can reach from a freshly loaded level through the
operations of the level controller (`HandleEventGroup`'s direct mutations
are selection plus cache reset). -/
inductive ReachableState : Level → Prop
  | loaded (l : Level) : allClear l.grid → ReachableState l
  | stepThink (l : Level) (mx my : Int) :
      ReachableState l → ReachableState (think l mx my).1
  | stepPrepMove (l : Level) : ReachableState l → ReachableState (PrepMove l)
  | stepPrepAttack (l : Level) : ReachableState l → ReachableState (PrepAttack l)
  | stepDoMove (l : Level) (cx cy : Nat) :
      ReachableState l → ReachableState (DoMove l cx cy)
  | stepDoAttack (l : Level) (ti : Nat) (res : AttackRes) :
      ReachableState l → ReachableState (DoAttack l ti res).1
  | stepSelect (l : Level) (oi : Option Nat) :
      ReachableState l →
      ReachableState { clearCache l with selected := oi, command := Command.NoCommand }
  | stepEnts (l : Level) (es : List Ent) :
      ReachableState l → ReachableState { l with entities := es }

theorem noMouseOver_PrepAttack (l : Level) (h : noMouseOver l.grid) :
    noMouseOver (PrepAttack l).grid := by
  unfold PrepAttack
  split
  · exact h
  · dsimp only
    split
    · exact h
    · split
      · exact h
      · exact noMouseOver_clearCache _ h

theorem noMouseOver_PrepMove (l : Level) (h : noMouseOver l.grid) :
    noMouseOver (PrepMove l).grid := by
  unfold PrepMove
  split
  · exact h
  · dsimp only
    split
    · exact h
    · exact noMouseOver_clearCache _ h

theorem noMouseOver_DoMove (l : Level) (cx cy : Nat) (h : noMouseOver l.grid) :
    noMouseOver (DoMove l cx cy).grid := by
  unfold DoMove
  split
  · exact h
  · dsimp only
    split
    · exact h
    · split
      · exact h
      · split
        · exact h
        · exact noMouseOver_clearCache _ h

theorem noMouseOver_DoAttack (l : Level) (ti : Nat) (res : AttackRes)
    (h : noMouseOver l.grid) : noMouseOver (DoAttack l ti res).1.grid := by
  unfold DoAttack
  split
  · exact h
  · dsimp only
    split
    · exact h
    · split
      · exact h
      · split
        · exact noMouseOver_clearCache _ h
        · exact noMouseOver_clearCache _ h

/-- C10: in every reachable level state, no grid cell's stored highlight
is `MouseOver`; `Think` paints the moused-over cell (and the selected
entity's cell) only on local copies emitted to the draw list, so the grid
itself only ever holds the highlights written by `maintainCommand` or the
cleared state. -/
theorem c10_grid_never_mouseover (l : Level) (h : ReachableState l) :
    noMouseOver l.grid := by
  induction h with
  | loaded l hc => exact noMouseOver_of_allClear _ hc
  | stepThink l mx my _ ih =>
    exact noMouseOver_maintainCommand (entityPhase l) (noMouseOver_entityPhase l ih)
  | stepPrepMove l _ ih => exact noMouseOver_PrepMove l ih
  | stepPrepAttack l _ ih => exact noMouseOver_PrepAttack l ih
  | stepDoMove l cx cy _ ih => exact noMouseOver_DoMove l cx cy ih
  | stepDoAttack l ti res _ ih => exact noMouseOver_DoAttack l ti res ih
  | stepSelect l oi _ ih => exact noMouseOver_clearCache l ih
  | stepEnts l es _ ih => exact ih

theorem c10_grid_never_mouseover_witness :
    noMouseOver (think levelMove 0 0).1.grid :=
  c10_grid_never_mouseover (think levelMove 0 0).1
    (ReachableState.stepThink levelMove 0 0
      (ReachableState.loaded levelMove (by decide)))

/-! ### DoAttack spends AP before checking range (claim C9) -/

/-- C9: when the selected entity's AP covers the weapon cost but the
target is beyond the weapon's reach, `DoAttack` still deducts the weapon
cost from the attacker's AP, resolves nothing (no signals, target health
unchanged) and leaves the command unchanged. -/
theorem c9_doAttack_spends_ap_before_range_check (l : Level) (si ti : Nat)
    (res : AttackRes)
    (hsel : l.selected = some si) (hsi : si < l.entities.length)
    (hap : ¬ (l.entities.getD si default).ap < (l.entities.getD si default).weaponCost)
    (hrange : (l.entities.getD si default).weaponReach <
      maxNormi ((l.entities.getD ti default).x : Int) ((l.entities.getD ti default).y : Int)
        ((l.entities.getD si default).x : Int) ((l.entities.getD si default).y : Int)) :
    DoAttack l ti res =
      ({ l with entities :=
          l.entities.set si (spendWeaponAp (l.entities.getD si default)) }, []) ∧
    ((DoAttack l ti res).1.entities.getD si default).ap =
      (l.entities.getD si default).ap - (l.entities.getD si default).weaponCost ∧
    ((DoAttack l ti res).1.entities.getD ti default).health =
      (l.entities.getD ti default).health ∧
    (DoAttack l ti res).1.command = l.command ∧
    (DoAttack l ti res).2 = [] := by
  have hx : ((l.entities.set si
        (spendWeaponAp (l.entities.getD si default))).getD ti default).x =
      (l.entities.getD ti default).x := by
    by_cases hti : si = ti
    · subst hti; rw [getD_set_self _ _ _ hsi]; rfl
    · rw [getD_set_ne _ _ hti]
  have hy : ((l.entities.set si
        (spendWeaponAp (l.entities.getD si default))).getD ti default).y =
      (l.entities.getD ti default).y := by
    by_cases hti : si = ti
    · subst hti; rw [getD_set_self _ _ _ hsi]; rfl
    · rw [getD_set_ne _ _ hti]
  have hmain : DoAttack l ti res =
      ({ l with entities :=
          l.entities.set si (spendWeaponAp (l.entities.getD si default)) }, []) := by
    unfold DoAttack
    rw [hsel]
    dsimp only
    rw [if_neg hap, hx, hy, if_pos hrange]
  refine ⟨hmain, ?_, ?_, ?_, ?_⟩
  · rw [hmain]
    exact congrArg Ent.ap (getD_set_self _ _ _ hsi)
  · rw [hmain]
    dsimp only
    by_cases hti : si = ti
    · subst hti; rw [getD_set_self _ _ _ hsi]; rfl
    · rw [getD_set_ne _ _ hti]
  · rw [hmain]
  · rw [hmain]

/-- An attacker with enough AP for its weapon and a target three cells
away but reach one. -/
def entAtk : Ent := ⟨0, 0, 5, 10, [], mcSample, 2, 1⟩

def entFar : Ent := ⟨3, 3, 4, 7, [], mcSample, 2, 1⟩

def levelAtk : Level := ⟨gridC, true, [entAtk, entFar], some 0, Command.Attack, [], []⟩

theorem c9_doAttack_spends_ap_before_range_check_witness :
    DoAttack levelAtk 1 ⟨true, 3⟩ =
      ({ levelAtk with entities :=
          levelAtk.entities.set 0 (spendWeaponAp (levelAtk.entities.getD 0 default)) }, []) ∧
    ((DoAttack levelAtk 1 ⟨true, 3⟩).1.entities.getD 0 default).ap =
      (levelAtk.entities.getD 0 default).ap -
        (levelAtk.entities.getD 0 default).weaponCost ∧
    ((DoAttack levelAtk 1 ⟨true, 3⟩).1.entities.getD 1 default).health =
      (levelAtk.entities.getD 1 default).health ∧
    (DoAttack levelAtk 1 ⟨true, 3⟩).1.command = levelAtk.command ∧
    (DoAttack levelAtk 1 ⟨true, 3⟩).2 = [] :=
  c9_doAttack_spends_ap_before_range_check levelAtk 0 1 ⟨true, 3⟩ rfl
    (by decide) (by decide) (by decide)

/-! ### DoMove (claim C3) -/

/-- C3 (amended): `DoMove` compares the *integer truncation* of the
shortest-path cost against the selected entity's AP.  When no path exists
or `⌊cost⌋` exceeds AP, the level is unchanged; otherwise the entity's
path queue becomes exactly the computed path minus the start cell, the
reachable list is dropped and the command reset — and no entity's AP is
ever changed by `DoMove` itself. -/
theorem c3_doMove_commit (l : Level) (si cx cy : Nat) (c? : Option ℚ)
    (path : List Nat)
    (hsel : l.selected = some si) (hsi : si < l.entities.length)
    (hd : dijkstra (levelGraph l (l.entities.getD si default).moveCost)
      [toVertex l (l.entities.getD si default).x (l.entities.getD si default).y]
      [toVertex l cx cy] = (c?, path)) :
    (path = [] → DoMove l cx cy = l) ∧
    (∀ c : ℚ, c? = some c → (l.entities.getD si default).ap < ⌊c⌋ →
      DoMove l cx cy = l) ∧
    (∀ c : ℚ, c? = some c → path ≠ [] → ¬ (l.entities.getD si default).ap < ⌊c⌋ →
      ((DoMove l cx cy).entities.getD si default).path =
          (path.drop 1).map (fun v => (fromVertexX l v, fromVertexY l v)) ∧
        (DoMove l cx cy).reachable = [] ∧
        (DoMove l cx cy).command = Command.NoCommand) ∧
    (∀ j, ((DoMove l cx cy).entities.getD j default).ap =
      (l.entities.getD j default).ap) := by
  have h1 : (dijkstra (levelGraph l (l.entities.getD si default).moveCost)
      [toVertex l (l.entities.getD si default).x (l.entities.getD si default).y]
      [toVertex l cx cy]).1 = c? := by rw [hd]
  have h2 : (dijkstra (levelGraph l (l.entities.getD si default).moveCost)
      [toVertex l (l.entities.getD si default).x (l.entities.getD si default).y]
      [toVertex l cx cy]).2 = path := by rw [hd]
  have he : ∀ lv : Level,
      ({ clearCache lv with command := Command.NoCommand } : Level).entities =
        lv.entities := by
    intro lv
    show (clearCache lv).entities = lv.entities
    exact clearCache_entities lv
  constructor
  · intro hp
    unfold DoMove
    rw [hsel]
    dsimp only
    rw [h2, if_pos hp]
  constructor
  · intro c hc hap
    unfold DoMove
    rw [hsel]
    dsimp only
    rw [h2, h1, hc]
    split
    · rfl
    · dsimp only
      rw [if_pos hap]
  constructor
  · intro c hc hp hap
    unfold DoMove
    rw [hsel]
    dsimp only
    rw [h2, h1, hc, if_neg hp]
    dsimp only
    rw [if_neg hap]
    refine ⟨?_, ?_, rfl⟩
    · rw [he, getD_set_self _ _ _ hsi]
    · show (clearCache _).reachable = _
      unfold clearCache
      split <;> rfl
  · intro j
    unfold DoMove
    rw [hsel]
    dsimp only
    rw [h2, h1]
    split
    · rfl
    · split
      · rfl
      · split
        · rfl
        · rw [he]
          by_cases hj : si = j
          · subst hj
            rw [getD_set_self _ _ _ hsi]
          · rw [getD_set_ne _ _ hj]

set_option maxRecDepth 100000 in
theorem c3_doMove_commit_witness :
    (([0, 3] : List Nat) = [] → DoMove levelC 1 1 = levelC) ∧
    (∀ c : ℚ, (some ((3 : ℚ) / 2) : Option ℚ) = some c →
      (levelC.entities.getD 0 default).ap < ⌊c⌋ → DoMove levelC 1 1 = levelC) ∧
    (∀ c : ℚ, (some ((3 : ℚ) / 2) : Option ℚ) = some c →
      (([0, 3] : List Nat)) ≠ [] →
      ¬ (levelC.entities.getD 0 default).ap < ⌊c⌋ →
      ((DoMove levelC 1 1).entities.getD 0 default).path =
          (([0, 3] : List Nat).drop 1).map
            (fun v => (fromVertexX levelC v, fromVertexY levelC v)) ∧
        (DoMove levelC 1 1).reachable = [] ∧
        (DoMove levelC 1 1).command = Command.NoCommand) ∧
    (∀ j, ((DoMove levelC 1 1).entities.getD j default).ap =
      (levelC.entities.getD j default).ap) :=
  c3_doMove_commit levelC 0 1 1 (some ((3 : ℚ) / 2)) [0, 3] rfl (by decide)
    (by with_unfolding_all decide)

set_option maxRecDepth 100000 in
/-- C3 counterexample: on the 2×2 grid the cheapest route from (0,0) to
(1,1) is the diagonal of cost `(1+2)/2 = 3/2`, which exceeds the selected
entity's AP of 1; `int(3/2) = 1 ≤ 1`, so `DoMove` still commits and
replaces the path queue. -/
theorem c3_doMove_counterexample :
    (dijkstra (levelGraph levelC mcSample) [toVertex levelC 0 0]
        [toVertex levelC 1 1]).1 = some ((3 : ℚ) / 2) ∧
    (levelC.entities.getD 0 default).ap = 1 ∧
    ¬ ((3 : ℚ) / 2 ≤ ((1 : Int) : ℚ)) ∧
    levelC.selected = some 0 ∧
    (levelC.entities.getD 0 default).path = [] ∧
    ((DoMove levelC 1 1).entities.getD 0 default).path = [(1, 1)] ∧
    (DoMove levelC 1 1).command = Command.NoCommand := by
  refine ⟨?_, rfl, by norm_num, rfl, rfl, ?_, ?_⟩
  · with_unfolding_all decide
  · with_unfolding_all decide
  · with_unfolding_all decide

/-! ## The `game` package action (`ActionBasicAttack`)

The `game` package's `Level`, `Entity`, `Dice` and the highlight bitmask
are not among the provided sources; they are modelled from the spec where
noted.  The action/attack logic itself (`Prep`, `Cancel`, `Maintain`) is
embedded from the source. -/

namespace game

/-- Modelled from the spec: the `game` entity as used by the attack
action — position, AP (`CurAp`/`SpendAp`), combat stats
(`CurAttack`/`CurDefense`), health (`CurHealth`/`DoDamage`). -/
structure GEnt where
  x : Int
  y : Int
  curAp : Int
  atk : Int
  defense : Int
  health : Int
deriving DecidableEq, Repr

/-- Modelled from the spec: the `game` highlight bitmask (`highlight |=
Attackable`), one flag per highlight kind. -/
structure GHighlight where
  reachable : Bool
  attackable : Bool
  mousedOver : Bool
deriving DecidableEq, Repr

structure GCell where
  highlight : GHighlight
deriving DecidableEq, Repr

structure GLevel where
  grid : List (List GCell)
  ents : List GEnt
deriving DecidableEq, Repr

/-- The configuration of `ActionBasicAttack` plus its transient state
(`targets`, `mark`) and its acting entity `Ent`. -/
structure AState where
  cost : Int
  power : Int
  range : Int
  melee : Int
  ent : GEnt
  targets : List GEnt
  mark : Option GEnt
deriving DecidableEq, Repr

inductive MStatus where
  | InProgress
  | Complete
deriving DecidableEq, Repr

def clearCell (c : GCell) : GCell :=
  ⟨{ c.highlight with attackable := false }⟩

/-- Modelled from the spec: `Level.clearCache(Attackable)` clears the
derived Attackable highlight from every cell. -/
def clearAttackable (lvl : GLevel) : GLevel :=
  { lvl with grid := lvl.grid.map fun row => row.map clearCell }

def setAttackableAt (g : List (List GCell)) (x y : Int) : List (List GCell) :=
  g.set x.toNat ((g.getD x.toNat []).set y.toNat
    ⟨{ ((g.getD x.toNat []).getD y.toNat ⟨⟨false, false, false⟩⟩).highlight
        with attackable := true }⟩)

/-- Modelled from the spec: `getEntsWithinRange` returns the entities of
the level within the action's range of the acting entity, the actor
excluded. -/
def getEntsWithinRange (self : GEnt) (range : Int) (lvl : GLevel) : List GEnt :=
  lvl.ents.filter fun e =>
    decide (e ≠ self) && decide (maxNormi e.x e.y self.x self.y ≤ range)

/-- `ActionBasicAttack.Prep`: AP check, target-set computation, then —
only when targets exist — highlight marking.  Note the target list is
assigned *before* the emptiness check. -/
def Prep (a : AState) (lvl : GLevel) : Bool × AState × GLevel :=
  if a.ent.curAp < a.cost then (false, a, lvl)
  else
    let ts := getEntsWithinRange a.ent a.range lvl
    if ts = [] then (false, { a with targets := ts }, lvl)
    else
      let g2 := ts.foldl (fun g t => setAttackableAt g t.x t.y) lvl.grid
      (true, { a with targets := ts }, { lvl with grid := g2 })

/-- `ActionBasicAttack.Cancel`: drop the mark and target list, clear the
Attackable highlights. -/
def Cancel (a : AState) (lvl : GLevel) : AState × GLevel :=
  ({ a with mark := none, targets := [] }, clearAttackable lvl)

structure MaintainOut where
  act : AState
  lvl : GLevel
  target : Option GEnt
  signals : List String
  status : MStatus
deriving Repr

/-- `ActionBasicAttack.Maintain`: the committed attack resolution.  The
dice roll `d` is the value of `Dice("5d5")` (five five-sided dice, hence
between 5 and 25); `(d-2)/3 - 4` uses Go's truncated integer division
(`Int.tdiv`).  `SpendAp`/`DoDamage` are modelled from the spec as plain
AP/health subtraction; `out.target` is the final state of the entity the
action had marked (the action's own `mark` pointer is cleared by the
trailing `Cancel`). -/
def Maintain (a : AState) (lvl : GLevel) (d : Int) : MaintainOut :=
  match a.mark with
  | none =>
    let c := Cancel a lvl
    ⟨c.1, c.2, none, [], MStatus.Complete⟩
  | some m =>
    if a.ent.curAp < a.cost then
      let c := Cancel a lvl
      ⟨c.1, c.2, some m, [], MStatus.Complete⟩
    else
      let a1 := { a with ent := { a.ent with curAp := a.ent.curAp - a.cost } }
      let sig0 := if a.melee ≠ 0 then "melee" else "ranged"
      let attackv := a.power + a1.ent.atk + ((d - 2).tdiv 3 - 4)
      if attackv ≤ m.defense then
        let c := Cancel a1 lvl
        ⟨c.1, c.2, some m, [sig0, "defend", "undamaged"], MStatus.Complete⟩
      else
        let m1 := { m with health := m.health - (attackv - m.defense) }
        let outcome := if m1.health ≤ 0 then "killed" else "damaged"
        let c := Cancel { a1 with mark := some m1 } lvl
        ⟨c.1, c.2, some m1, [sig0, "defend", outcome], MStatus.Complete⟩

end game

theorem clearAttackable_idem (lvl : game.GLevel) :
    game.clearAttackable (game.clearAttackable lvl) = game.clearAttackable lvl := by
  unfold game.clearAttackable
  dsimp only
  rw [List.map_map]
  have hg : ((fun row => List.map game.clearCell row) ∘
      fun row => List.map game.clearCell row) =
      fun row : List game.GCell => List.map game.clearCell row := by
    funext row
    show (row.map game.clearCell).map game.clearCell = row.map game.clearCell
    rw [List.map_map]
    have hc : game.clearCell ∘ game.clearCell = game.clearCell := by
      funext c; rfl
    rw [hc]
  rw [hg]

/-- C8: `Cancel` is total (safe in every state, also before `Prep`),
idempotent, releases the transient state (`mark`, `targets`) and clears
the Attackable highlight from every grid cell. -/
theorem c8_cancel_idempotent (a : game.AState) (lvl : game.GLevel) :
    game.Cancel (game.Cancel a lvl).1 (game.Cancel a lvl).2 = game.Cancel a lvl ∧
    (game.Cancel a lvl).1.mark = none ∧
    (game.Cancel a lvl).1.targets = [] ∧
    ∀ row ∈ (game.Cancel a lvl).2.grid, ∀ c ∈ row,
      c.highlight.attackable = false := by
  refine ⟨?_, rfl, rfl, ?_⟩
  · have h2 := clearAttackable_idem lvl
    unfold game.Cancel
    dsimp only
    rw [h2]
  · intro row hrow c hcell
    obtain ⟨row0, hrow0, rfl⟩ := List.mem_map.mp hrow
    obtain ⟨c0, hc0, rfl⟩ := List.mem_map.mp hcell
    rfl

/-- C4: in a committed attack resolution (`mark` set, AP sufficient):
a roll `power + attack + offset` at or below the defender's defense
yields exactly the "undamaged" signal with the defender untouched — in
particular for every die value in [5,25] whenever defense ≥ power +
attack + 3, the maximum possible offset being `(25-2)/3 - 4 = 3`; and a
roll above defense that brings health to ≤ 0 yields "killed" and never
"damaged". -/
theorem c4_attack_resolution (a : game.AState) (lvl : game.GLevel) (d : Int)
    (m : game.GEnt) (hmark : a.mark = some m) (hap : ¬ a.ent.curAp < a.cost) :
    (a.power + a.ent.atk + ((d - 2).tdiv 3 - 4) ≤ m.defense →
      (game.Maintain a lvl d).target = some m ∧
      (game.Maintain a lvl d).signals =
        [if a.melee ≠ 0 then "melee" else "ranged", "defend", "undamaged"] ∧
      "undamaged" ∈ (game.Maintain a lvl d).signals ∧
      "damaged" ∉ (game.Maintain a lvl d).signals ∧
      "killed" ∉ (game.Maintain a lvl d).signals) ∧
    (5 ≤ d → d ≤ 25 → a.power + a.ent.atk + 3 ≤ m.defense →
      (game.Maintain a lvl d).target = some m ∧
      "undamaged" ∈ (game.Maintain a lvl d).signals ∧
      "damaged" ∉ (game.Maintain a lvl d).signals) ∧
    (m.defense < a.power + a.ent.atk + ((d - 2).tdiv 3 - 4) →
      m.health - (a.power + a.ent.atk + ((d - 2).tdiv 3 - 4) - m.defense) ≤ 0 →
      "killed" ∈ (game.Maintain a lvl d).signals ∧
      "damaged" ∉ (game.Maintain a lvl d).signals ∧
      (game.Maintain a lvl d).target = some { m with
        health := m.health - (a.power + a.ent.atk + ((d - 2).tdiv 3 - 4) - m.defense) }) := by
  have hundamaged : a.power + a.ent.atk + ((d - 2).tdiv 3 - 4) ≤ m.defense →
      (game.Maintain a lvl d).target = some m ∧
      (game.Maintain a lvl d).signals =
        [if a.melee ≠ 0 then "melee" else "ranged", "defend", "undamaged"] ∧
      "undamaged" ∈ (game.Maintain a lvl d).signals ∧
      "damaged" ∉ (game.Maintain a lvl d).signals ∧
      "killed" ∉ (game.Maintain a lvl d).signals := by
    intro hle
    have hout : game.Maintain a lvl d =
        ⟨(game.Cancel { a with ent := { a.ent with curAp := a.ent.curAp - a.cost } } lvl).1,
          (game.Cancel { a with ent := { a.ent with curAp := a.ent.curAp - a.cost } } lvl).2,
          some m,
          [if a.melee ≠ 0 then "melee" else "ranged", "defend", "undamaged"],
          game.MStatus.Complete⟩ := by
      unfold game.Maintain
      rw [hmark]
      dsimp only
      rw [if_neg hap, if_pos hle]
    rw [hout]
    dsimp only
    refine ⟨rfl, rfl, ?_, ?_, ?_⟩
    · split <;> decide
    · split <;> decide
    · split <;> decide
  refine ⟨hundamaged, ?_, ?_⟩
  · intro h5 h25 hdef
    have htd : (d - 2).tdiv 3 = (d - 2) / 3 := by
      obtain ⟨k, hk⟩ := Int.eq_ofNat_of_zero_le (show (0 : Int) ≤ d - 2 by omega)
      rw [hk]; rfl
    have hle : a.power + a.ent.atk + ((d - 2).tdiv 3 - 4) ≤ m.defense := by
      rw [htd]; omega
    obtain ⟨ht, -, hu, hdm, -⟩ := hundamaged hle
    exact ⟨ht, hu, hdm⟩
  · intro hgt hkill
    have hout : game.Maintain a lvl d =
        ⟨(game.Cancel { { a with ent := { a.ent with curAp := a.ent.curAp - a.cost } }
              with mark := some { m with health :=
                m.health - (a.power + a.ent.atk + ((d - 2).tdiv 3 - 4) - m.defense) } } lvl).1,
          (game.Cancel { { a with ent := { a.ent with curAp := a.ent.curAp - a.cost } }
              with mark := some { m with health :=
                m.health - (a.power + a.ent.atk + ((d - 2).tdiv 3 - 4) - m.defense) } } lvl).2,
          some { m with health :=
            m.health - (a.power + a.ent.atk + ((d - 2).tdiv 3 - 4) - m.defense) },
          [if a.melee ≠ 0 then "melee" else "ranged", "defend", "killed"],
          game.MStatus.Complete⟩ := by
      unfold game.Maintain
      rw [hmark]
      dsimp only
      rw [if_neg hap, if_neg (not_le.mpr hgt), if_pos hkill]
    rw [hout]
    dsimp only
    refine ⟨?_, ?_, rfl⟩
    · split <;> decide
    · split <;> decide

/-- Defender with defense 3 and health 10. -/
def mW : game.GEnt := ⟨1, 0, 0, 0, 3, 10⟩

/-- Basic attack: cost 1, power 5, melee, acting entity with 2 AP and
attack stat 0, marked on `mW`. -/
def aW : game.AState := ⟨1, 5, 3, 1, ⟨0, 0, 2, 0, 0, 10⟩, [], some mW⟩

def lvlW : game.GLevel := ⟨[[⟨⟨false, true, false⟩⟩]], [aW.ent, mW]⟩

theorem c4_attack_resolution_witness :
    (aW.power + aW.ent.atk + (((5 : Int) - 2).tdiv 3 - 4) ≤ mW.defense →
      (game.Maintain aW lvlW 5).target = some mW ∧
      (game.Maintain aW lvlW 5).signals =
        [if aW.melee ≠ 0 then "melee" else "ranged", "defend", "undamaged"] ∧
      "undamaged" ∈ (game.Maintain aW lvlW 5).signals ∧
      "damaged" ∉ (game.Maintain aW lvlW 5).signals ∧
      "killed" ∉ (game.Maintain aW lvlW 5).signals) ∧
    (5 ≤ (5 : Int) → (5 : Int) ≤ 25 → aW.power + aW.ent.atk + 3 ≤ mW.defense →
      (game.Maintain aW lvlW 5).target = some mW ∧
      "undamaged" ∈ (game.Maintain aW lvlW 5).signals ∧
      "damaged" ∉ (game.Maintain aW lvlW 5).signals) ∧
    (mW.defense < aW.power + aW.ent.atk + (((5 : Int) - 2).tdiv 3 - 4) →
      mW.health - (aW.power + aW.ent.atk + (((5 : Int) - 2).tdiv 3 - 4) - mW.defense) ≤ 0 →
      "killed" ∈ (game.Maintain aW lvlW 5).signals ∧
      "damaged" ∉ (game.Maintain aW lvlW 5).signals ∧
      (game.Maintain aW lvlW 5).target = some { mW with
        health := mW.health - (aW.power + aW.ent.atk +
          (((5 : Int) - 2).tdiv 3 - 4) - mW.defense) }) :=
  c4_attack_resolution aW lvlW 5 mW rfl (by decide)

/-! ### Prep failure semantics (claim C5) -/

/-- C5 (amended): a `Prep` with insufficient AP fails with no side effect
at all; a `Prep` with sufficient AP but no valid target in range fails
without touching the grid, the highlights or the command — but the
candidate list field is overwritten before the failure return
(`ActionBasicAttack.Prep` assigns `targets`, `Level.PrepAttack` resets
`in_range`). -/
theorem c5_prep_failure (a : game.AState) (lvl : game.GLevel)
    (l : Level) (si : Nat) :
    (a.ent.curAp < a.cost → game.Prep a lvl = (false, a, lvl)) ∧
    (¬ a.ent.curAp < a.cost → game.getEntsWithinRange a.ent a.range lvl = [] →
      game.Prep a lvl = (false, { a with targets := [] }, lvl)) ∧
    (l.selected = none → PrepAttack l = l) ∧
    (l.selected = some si →
      (l.entities.getD si default).ap < (l.entities.getD si default).weaponCost →
      PrepAttack l = l) ∧
    (l.selected = some si →
      ¬ (l.entities.getD si default).ap < (l.entities.getD si default).weaponCost →
      prepAttackRange l si = [] →
      PrepAttack l = { l with inRange := [] }) := by
  refine ⟨?_, ?_, ?_, ?_, ?_⟩
  · intro h
    unfold game.Prep
    rw [if_pos h]
  · intro h he
    unfold game.Prep
    rw [if_neg h]
    dsimp only
    rw [he, if_pos rfl]
  · intro h
    unfold PrepAttack
    rw [h]
  · intro h hap
    unfold PrepAttack
    rw [h]
    dsimp only
    rw [if_pos hap]
  · intro h hap hr
    unfold PrepAttack
    rw [h]
    dsimp only
    rw [if_neg hap, hr, if_pos rfl]

/-- A level with a leftover `in_range` list, a selected entity with
plenty of AP and no other entity at all. -/
def levelPrep : Level := ⟨gridC, true, [entAtk], some 0, Command.NoCommand, [], [5]⟩

/-- An action whose entity cannot afford the AP cost. -/
def aPoor : game.AState := ⟨5, 1, 2, 0, ⟨0, 0, 1, 0, 0, 5⟩, [mW], some mW⟩

theorem c5_prep_failure_witness :
    game.Prep aPoor lvlW = (false, aPoor, lvlW) ∧
    PrepAttack levelPrep = { levelPrep with inRange := [] } :=
  ⟨(c5_prep_failure aPoor lvlW levelPrep 0).1 (by decide),
    (c5_prep_failure aPoor lvlW levelPrep 0).2.2.2.2 rfl (by decide) (by decide)⟩

/-- C5 counterexample: prerequisites are unmet (no valid target in
range), `PrepAttack` fails (command stays `NoCommand`, grid untouched) —
yet the level state is modified: the stored `in_range` list `[5]` is
overwritten with the empty list. -/
theorem c5_prep_counterexample :
    ¬ (entAtk.ap < entAtk.weaponCost) ∧
    prepAttackRange levelPrep 0 = [] ∧
    levelPrep.inRange = [5] ∧
    PrepAttack levelPrep = { levelPrep with inRange := [] } ∧
    PrepAttack levelPrep ≠ levelPrep ∧
    (PrepAttack levelPrep).grid = levelPrep.grid ∧
    (PrepAttack levelPrep).command = levelPrep.command := by
  have hmain : PrepAttack levelPrep = { levelPrep with inRange := [] } := by
    unfold PrepAttack
    rw [show levelPrep.selected = some 0 from rfl]
    dsimp only
    rw [if_neg (by decide), show prepAttackRange levelPrep 0 = [] from by decide,
      if_pos rfl]
    rfl
  refine ⟨by decide, by decide, rfl, hmain, ?_, by rw [hmain], by rw [hmain]⟩
  intro heq
  rw [hmain] at heq
  have h2 := congrArg Level.inRange heq
  exact absurd h2 (by decide)

/-! ## Level loading (`LoadLevel`, claim C6)

The file system and the JSON decoder are external; the embedding takes
the outcome of `os.Open`/`ioutil.ReadAll` as a flag and the outcome of
`json.Unmarshal` as the pair of the (possibly partially) decoded
container and an error flag.  The source DISCARDS the `json.Unmarshal`
error (`json.Unmarshal(data, &ldc)` with no error check), which the
model mirrors by never reading `unmarshalErr`.  A terrain abort
(`panic("WTF")`), an out-of-range access on an empty or ragged cell
array, and a failed `gui.MakeTerrain` are the abort paths. -/

structure LevelDataCell where
  terrain : String
deriving DecidableEq, Repr

structure LevelData where
  image : String
  cells : List (List LevelDataCell)
deriving DecidableEq, Repr

structure LevelDataContainer where
  level : LevelData
deriving DecidableEq, Repr

structure LoadInput where
  readErr : Bool
  ldc : LevelDataContainer
  unmarshalErr : Bool
  terrainErr : Bool
deriving DecidableEq, Repr

def resolveCell (s : String) : Except String Terrain :=
  match s with
  | "grass" => Except.ok Terrain.Grass
  | "brush" => Except.ok Terrain.Brush
  | "water" => Except.ok Terrain.Water
  | "dirt" => Except.ok Terrain.Dirt
  | _ => Except.error "WTF"

def cellLookup (cells : List (List LevelDataCell)) (i j : Nat) :
    Except String LevelDataCell :=
  match (cells.get? i).bind fun row => row.get? j with
  | none => Except.error "index out of range"
  | some c => Except.ok c

def buildGrid (cells : List (List LevelDataCell)) (dx dy : Nat) :
    Except String (List (List CellData)) :=
  (List.range dx).mapM fun i =>
    (List.range dy).mapM fun j => do
      let c ← cellLookup cells i j
      let t ← resolveCell c.terrain
      pure (⟨t, Highlight.None⟩ : CellData)

def LoadLevel (inp : LoadInput) : Except String Level :=
  if inp.readErr then Except.error "io error"
  else
    let cells := inp.ldc.level.cells
    match cells.head? with
    | none => Except.error "index out of range"
    | some row0 =>
      match buildGrid cells cells.length row0.length with
      | Except.error e => Except.error e
      | Except.ok g =>
        if inp.terrainErr then Except.error "MakeTerrain failed"
        else Except.ok ⟨g, false, [], none, Command.NoCommand, [], []⟩

def ldcGood : LevelDataContainer := ⟨⟨"bg.png", [[⟨"grass"⟩]]⟩⟩

/-- A malformed level document whose partial decode populated the
container (e.g. a valid JSON object followed by trailing garbage):
`json.Unmarshal` reports an error, which `LoadLevel` discards. -/
def malformedInput : LoadInput := ⟨false, ldcGood, true, false⟩

def badLabelInput : LoadInput := ⟨false, ⟨⟨"bg.png", [[⟨"lava"⟩]]⟩⟩, false, false⟩

/-- C6: the code discards the `json.Unmarshal` error, so a malformed
document whose partial decode yields usable cells produces a fully
constructed Level instead of aborting; an unrecognized terrain label and
a read failure do abort. -/
theorem c6_loadLevel_ignores_unmarshal_error :
    malformedInput.unmarshalErr = true ∧
    LoadLevel malformedInput =
      Except.ok ⟨[[⟨Terrain.Grass, Highlight.None⟩]], false, [], none,
        Command.NoCommand, [], []⟩ ∧
    LoadLevel badLabelInput = Except.error "WTF" ∧
    LoadLevel ⟨true, ldcGood, false, false⟩ = Except.error "io error" :=
  ⟨rfl, rfl, rfl, rfl⟩

end Glop
